import Mathlib

set_option maxRecDepth 8000

/-!
Verification of `foreman_openshift_ansible_inventory.py` against its
specification.  The Python script is shallowly embedded below: each Python
function that the claims touch gets a Lean counterpart operating on explicit
state.  Python dicts are modelled as association lists with unique keys and
insertion-order semantics (`pyLookup`, `dictInsert`, `push`), Python's
exceptions as an `Except PyErr` result, file-system state as an explicit
record, and `time()` as an `Int` parameter.
-/

/-! ## `ForemanInventory.to_safe`

Source:
```
regex = "[^A-Za-z0-9\_]"
return re.sub(regex, "_", word.replace(" ", ""))
```
`word.replace(" ", "")` deletes every space character; `re.sub` with the
single-character class then rewrites each remaining character outside
`[A-Za-z0-9_]` to an underscore. -/

def isSafeChar (c : Char) : Bool :=
  (('A' ≤ c && c ≤ 'Z') || ('a' ≤ c && c ≤ 'z') || ('0' ≤ c && c ≤ '9') || c = '_')

def to_safe (word : String) : String :=
  String.mk ((word.data.filter (fun c => c ≠ ' ')).map
    (fun c => if isSafeChar c then c else '_'))

/-! ## `ForemanInventory.is_cache_valid`

The three cache files and the primary file's modification time are the only
file-system facts the function consults; `time()` is passed in as `now`.
Times are modelled as integers (the source compares a float modification
time, but only the order relation is used). -/

structure CacheFiles where
  cacheExists : Bool
  cacheMtime : Int
  inventoryExists : Bool
  paramsExists : Bool

def is_cache_valid (fs : CacheFiles) (cache_max_age : Int) (now : Int) : Bool :=
  if fs.cacheExists then
    if fs.cacheMtime + cache_max_age > now then
      if fs.inventoryExists && fs.paramsExists then true
      else false
    else false
  else false

/-! ## `ForemanInventory._get_json`, paginated-list path

Source loop (the `results`-is-a-list branch):
```
page = 1; results = []
while True:
    json = GET(url, page)
    results = results + json['results']
    if len(results) >= json['total']:
        break
    page += 1
    if len(json['results']) == 0:
        print("Did not make any progress ...", file=sys.stderr)
        break
return results
```
The server is modelled by `pages : Nat → List Nat` (the `results` list of
each page response, records as opaque `Nat`s) and a single reported
`total : Nat` (the claims' "server-reported total"; the source reads
`json['total']` from each response and the model takes the server to report
it consistently).  The returned `Bool` records whether the stall warning was
printed to stderr.  `get_json` is the loop itself (termination by
well-founded recursion on `total - acc.length`); `get_json_fuel` is the same
loop cut off after `fuel` iterations, used to state that the loop finishes
within `total + 1` iterations. -/

def get_json (pages : Nat → List Nat) (total : Nat) (page : Nat) (acc : List Nat) :
    List Nat × Bool :=
  if (acc ++ pages page).length ≥ total then (acc ++ pages page, false)
  else if (pages page).length = 0 then (acc ++ pages page, true)
  else get_json pages total (page + 1) (acc ++ pages page)
termination_by total - acc.length
decreasing_by
  rename_i h1 h2
  simp only [List.length_append] at h1 ⊢
  omega

def get_json_fuel (pages : Nat → List Nat) (total : Nat) :
    Nat → Nat → List Nat → List Nat × Bool
  | 0, _, acc => (acc, false)
  | fuel + 1, page, acc =>
    if (acc ++ pages page).length ≥ total then (acc ++ pages page, false)
    else if (pages page).length = 0 then (acc ++ pages page, true)
    else get_json_fuel pages total fuel (page + 1) (acc ++ pages page)

/-- Mock server for the 250,250 scenario: pages 1 and 2 each hold 250
records, later pages are empty. -/
def mockPages1 (p : Nat) : List Nat :=
  if p ≤ 2 then List.replicate 250 0 else []

/-- Mock server for the 250,0 scenario: page 1 holds 250 records, later
pages are empty. -/
def mockPages2 (p : Nat) : List Nat :=
  if p = 1 then List.replicate 250 0 else []

/-! ## JSON documents

`json.dumps(data, sort_keys=True, indent=2)` and `json.loads` are the
serialization layer of the cache files (`write_to_cache`,
`load_*_from_cache`) and of parameter-value decoding
(`_get_all_params_by_id`).  JSON values are modelled with integer numbers
(floats are outside the model) and Lean `Char` strings (unicode scalar
values; Python strings also allow lone surrogates, which the dumper
never produces). -/

inductive Json where
  | null : Json
  | bool (b : Bool) : Json
  | num (n : Int) : Json
  | str (s : String) : Json
  | arr (elems : List Json) : Json
  | obj (members : List (String × Json)) : Json

/-- Lexicographic code-point order on strings, as Python's `sorted` uses on
dict keys. -/
def charListLe : List Char → List Char → Bool
  | [], _ => true
  | _ :: _, [] => false
  | a :: as, b :: bs =>
    if a.toNat < b.toNat then true
    else if b.toNat < a.toNat then false
    else charListLe as bs

def keyLe (a b : String × Json) : Bool := charListLe a.1.data b.1.data

def keyLeP (a b : String × Json) : Prop := keyLe a b = true

instance : DecidableRel keyLeP := fun a b => instDecidableEqBool (keyLe a b) true

/-- Stable insertion sort by key; with the distinct keys a Python dict
yields, it agrees with any sort `sort_keys=True` performs. -/
def sortByKey (l : List (String × Json)) : List (String × Json) :=
  List.insertionSort keyLeP l

mutual
/-- Recursively sorts every object's members by key: the canonical form of a
document, i.e. the document as `dumps(..., sort_keys=True)` lays it out. -/
def canon : Json → Json
  | .null => .null
  | .bool b => .bool b
  | .num n => .num n
  | .str s => .str s
  | .arr xs => .arr (canonList xs)
  | .obj kvs => .obj (sortByKey (canonObj kvs))

def canonList : List Json → List Json
  | [] => []
  | x :: xs => canon x :: canonList xs

def canonObj : List (String × Json) → List (String × Json)
  | [] => []
  | (k, v) :: kvs => (k, canon v) :: canonObj kvs
end

/-- Two documents are JSON-equivalent when they agree up to the order of
object members (order inside arrays does matter). -/
def jsonEquiv (a b : Json) : Prop := canon a = canon b

def hexDig (n : Nat) : Char :=
  if n < 10 then Char.ofNat ('0'.toNat + n) else Char.ofNat ('a'.toNat + (n - 10))

def hex4 (n : Nat) : List Char :=
  [hexDig (n / 4096 % 16), hexDig (n / 256 % 16), hexDig (n / 16 % 16),
   hexDig (n % 16)]

/-- One character of `json.dumps`'s default (`ensure_ascii=True`) string
escaping: `\"` and `\\`, the short control escapes, printable ASCII
verbatim, and `\uXXXX` (a surrogate pair above U+FFFF) for everything
else. -/
def escChar (c : Char) : List Char :=
  if c = '"' then ['\\', '"']
  else if c = '\\' then ['\\', '\\']
  else if c = '\x08' then ['\\', 'b']
  else if c = '\x0C' then ['\\', 'f']
  else if c = '\n' then ['\\', 'n']
  else if c = '\r' then ['\\', 'r']
  else if c = '\t' then ['\\', 't']
  else if 0x20 ≤ c.toNat ∧ c.toNat ≤ 0x7E then [c]
  else if c.toNat < 0x10000 then '\\' :: 'u' :: hex4 c.toNat
  else ('\\' :: 'u' :: hex4 (0xD800 + (c.toNat - 0x10000) / 0x400))
    ++ ('\\' :: 'u' :: hex4 (0xDC00 + (c.toNat - 0x10000) % 0x400))

def escString : List Char → List Char
  | [] => []
  | c :: cs => escChar c ++ escString cs

def dumpStr (s : String) : List Char := '"' :: (escString s.data ++ ['"'])

/-- Decimal digits of a natural number, most significant first. -/
def natDigits (n : Nat) : List Char :=
  if h : n < 10 then [hexDig n]
  else natDigits (n / 10) ++ [hexDig (n % 10)]
decreasing_by exact Nat.div_lt_self (by omega) (by omega)

def printInt (n : Int) : List Char :=
  if n < 0 then '-' :: natDigits n.natAbs else natDigits n.natAbs

/-- The `indent=2` prefix at nesting depth `lvl`. -/
def ind (lvl : Nat) : List Char := List.replicate (2 * lvl) ' '

mutual
/-- Layout of `json.dumps(..., indent=2)` (with already-sorted objects):
empty containers print as `[]`/`{}`, non-empty ones put each item on its own
line indented two more spaces, items separated by `,` and keys followed by
`: `. -/
def jdump : Nat → Json → List Char
  | _, .null => ['n', 'u', 'l', 'l']
  | _, .bool true => ['t', 'r', 'u', 'e']
  | _, .bool false => ['f', 'a', 'l', 's', 'e']
  | _, .num n => printInt n
  | _, .str s => dumpStr s
  | _, .arr [] => ['[', ']']
  | lvl, .arr (x :: xs) =>
    '[' :: '\n' :: (jdumpElems (lvl + 1) x xs ++ '\n' :: (ind lvl ++ [']']))
  | _, .obj [] => ['\x7b', '\x7d']
  | lvl, .obj (p :: ps) =>
    '\x7b' :: '\n' :: (jdumpMembers (lvl + 1) p ps ++ '\n' :: (ind lvl ++ ['\x7d']))
termination_by lvl v => sizeOf v
decreasing_by
  all_goals
    simp only [Json.arr.sizeOf_spec, Json.obj.sizeOf_spec,
      List.cons.sizeOf_spec, List.nil.sizeOf_spec, Prod.mk.sizeOf_spec]
  all_goals omega

def jdumpElems : Nat → Json → List Json → List Char
  | lvl, x, [] => ind lvl ++ jdump lvl x
  | lvl, x, y :: ys =>
    ind lvl ++ (jdump lvl x ++ ',' :: '\n' :: jdumpElems lvl y ys)
termination_by lvl x xs => 1 + sizeOf x + sizeOf xs
decreasing_by
  all_goals
    simp only [Json.arr.sizeOf_spec, Json.obj.sizeOf_spec,
      List.cons.sizeOf_spec, List.nil.sizeOf_spec, Prod.mk.sizeOf_spec]
  all_goals omega

def jdumpMembers : Nat → (String × Json) → List (String × Json) → List Char
  | lvl, (k, v), [] => ind lvl ++ (dumpStr k ++ ':' :: ' ' :: jdump lvl v)
  | lvl, (k, v), q :: qs =>
    ind lvl ++ (dumpStr k ++ ':' :: ' ' :: (jdump lvl v
      ++ ',' :: '\n' :: jdumpMembers lvl q qs))
termination_by lvl p ps => 1 + sizeOf p + sizeOf ps
decreasing_by
  all_goals
    simp only [Json.arr.sizeOf_spec, Json.obj.sizeOf_spec,
      List.cons.sizeOf_spec, List.nil.sizeOf_spec, Prod.mk.sizeOf_spec]
  all_goals omega
end

/-- Models `ForemanInventory.json_format_dict(data, pretty=True)`:
`json.dumps(data, sort_keys=True, indent=2)`. -/
def json_format_dict (v : Json) : String := String.mk (jdump 0 (canon v))

/-- Models `ForemanInventory.write_to_cache`: the file contents written for a
document (the file handling itself is outside the model). -/
def write_to_cache (data : Json) : String := json_format_dict data

/-! ### `json.loads` -/

def isWsChar (c : Char) : Bool :=
  c.toNat = 32 || c.toNat = 9 || c.toNat = 10 || c.toNat = 13

def skipWs : List Char → List Char
  | [] => []
  | c :: cs => if isWsChar c then skipWs cs else c :: cs

def isDigitChar (c : Char) : Bool := 48 ≤ c.toNat && c.toNat ≤ 57

def digitVal (c : Char) : Nat := c.toNat - 48

def hexVal (c : Char) : Option Nat :=
  if 48 ≤ c.toNat && c.toNat ≤ 57 then some (c.toNat - 48)
  else if 97 ≤ c.toNat && c.toNat ≤ 102 then some (c.toNat - 97 + 10)
  else if 65 ≤ c.toNat && c.toNat ≤ 70 then some (c.toNat - 65 + 10)
  else none

/-- Reads exactly four hex digits off the front. -/
def hex4Val : List Char → Option (Nat × List Char)
  | h1 :: h2 :: h3 :: h4 :: rest =>
    match hexVal h1, hexVal h2, hexVal h3, hexVal h4 with
    | some a, some b, some c, some d => some (a * 4096 + b * 256 + c * 16 + d, rest)
    | _, _, _, _ => none
  | _ => none

/-- Decodes the rest of a `\uXXXX` escape: a high surrogate must be
followed by its paired low surrogate (as in any text the dumper produces; a
lone surrogate is not a scalar value). -/
def decodeU (r : List Char) : Option (Char × List Char) :=
  match hex4Val r with
  | none => none
  | some (n, rest2) =>
    if 0xD800 ≤ n ∧ n ≤ 0xDBFF then
      match rest2 with
      | b1 :: b2 :: rest3 =>
        if b1 = '\\' ∧ b2 = 'u' then
          match hex4Val rest3 with
          | none => none
          | some (m, rest4) =>
            if 0xDC00 ≤ m ∧ m ≤ 0xDFFF then
              some (Char.ofNat (0x10000 + (n - 0xD800) * 0x400 + (m - 0xDC00)), rest4)
            else none
        else none
      | _ => none
    else if 0xDC00 ≤ n ∧ n ≤ 0xDFFF then none
    else some (Char.ofNat n, rest2)

/-- Decodes one escape sequence (the part after the backslash): the named
escapes and `\uXXXX`. -/
def decodeEsc : List Char → Option (Char × List Char)
  | '"' :: r => some ('"', r)
  | '\\' :: r => some ('\\', r)
  | '/' :: r => some ('/', r)
  | 'b' :: r => some ('\x08', r)
  | 'f' :: r => some ('\x0C', r)
  | 'n' :: r => some ('\n', r)
  | 'r' :: r => some ('\r', r)
  | 't' :: r => some ('\t', r)
  | 'u' :: r => decodeU r
  | _ => none

/-- String-body scanner: consumes up to the closing quote, decoding escapes.
Fuel-indexed (one unit per decoded character); callers pass the input
length plus one, which suffices because every decoded character consumes at
least one input character. -/
def parseStrAux : Nat → List Char → List Char → Option (String × List Char)
  | 0, _, _ => none
  | fuel + 1, acc, cs =>
    match cs with
    | [] => none
    | c :: rest =>
      if c = '"' then some (String.mk acc, rest)
      else if c = '\\' then
        match decodeEsc rest with
        | some (x, rest2) => parseStrAux fuel (acc ++ [x]) rest2
        | none => none
      else parseStrAux fuel (acc ++ [c]) rest

/-- Splits a maximal run of decimal digits off the front. -/
def takeDigits : List Char → List Char × List Char
  | [] => ([], [])
  | c :: cs =>
    if isDigitChar c then
      ((takeDigits cs).1.cons c, (takeDigits cs).2)
    else ([], c :: cs)

def decodeDigits (ds : List Char) : Nat :=
  ds.foldl (fun a c => a * 10 + digitVal c) 0

/-- True when the input does not continue with another digit (so a digit
run ending here is maximal). -/
def headNotDigit : List Char → Bool
  | [] => true
  | c :: _ => !isDigitChar c

/-- Integer token: optional minus sign and a non-empty digit run. -/
def parseIntTok : List Char → Option (Int × List Char)
  | [] => none
  | c :: cs =>
    if c = '-' then
      match takeDigits cs with
      | ([], _) => none
      | (d :: ds, r) => some (-(decodeDigits (d :: ds) : Int), r)
    else
      match takeDigits (c :: cs) with
      | ([], _) => none
      | (d :: ds, r) => some ((decodeDigits (d :: ds) : Int), r)

mutual
/-- Recursive-descent value parser (fuel-indexed; `json_loads` supplies
fuel exceeding the input length, which `jfuel_le_jdump_length` shows is
enough for any dumped document). -/
def parseVal : Nat → List Char → Option (Json × List Char)
  | 0, _ => none
  | fuel + 1, cs =>
    match skipWs cs with
    | [] => none
    | c :: rest =>
      if c = 'n' then
        match rest with
        | 'u' :: 'l' :: 'l' :: r => some (.null, r)
        | _ => none
      else if c = 't' then
        match rest with
        | 'r' :: 'u' :: 'e' :: r => some (.bool true, r)
        | _ => none
      else if c = 'f' then
        match rest with
        | 'a' :: 'l' :: 's' :: 'e' :: r => some (.bool false, r)
        | _ => none
      else if c = '"' then
        match parseStrAux (rest.length + 1) [] rest with
        | some (s, r) => some (.str s, r)
        | none => none
      else if c = '[' then
        match skipWs rest with
        | [] => none
        | d :: r2 =>
          if d = ']' then some (.arr [], r2)
          else
            match parseElems fuel rest with
            | some (xs, r) => some (.arr xs, r)
            | none => none
      else if c = '\x7b' then
        match skipWs rest with
        | [] => none
        | d :: r2 =>
          if d = '\x7d' then some (.obj [], r2)
          else
            match parseMembers fuel rest with
            | some (kvs, r) => some (.obj kvs, r)
            | none => none
      else
        match parseIntTok (c :: rest) with
        | some (n, r) => some (.num n, r)
        | none => none

def parseElems : Nat → List Char → Option (List Json × List Char)
  | 0, _ => none
  | fuel + 1, cs =>
    match parseVal fuel cs with
    | none => none
    | some (v, r1) =>
      match skipWs r1 with
      | [] => none
      | d :: r2 =>
        if d = ',' then
          match parseElems fuel r2 with
          | some (vs, r3) => some (v :: vs, r3)
          | none => none
        else if d = ']' then some ([v], r2)
        else none

def parseMembers : Nat → List Char → Option (List (String × Json) × List Char)
  | 0, _ => none
  | fuel + 1, cs =>
    match skipWs cs with
    | [] => none
    | d :: r0 =>
      if d = '"' then
        match parseStrAux (r0.length + 1) [] r0 with
        | none => none
        | some (k, r1) =>
          match skipWs r1 with
          | [] => none
          | d2 :: r2 =>
            if d2 = ':' then
              match parseVal fuel r2 with
              | none => none
              | some (v, r3) =>
                match skipWs r3 with
                | [] => none
                | d3 :: r4 =>
                  if d3 = ',' then
                    match parseMembers fuel r4 with
                    | some (kvs, r5) => some ((k, v) :: kvs, r5)
                    | none => none
                  else if d3 = '\x7d' then some ([(k, v)], r4)
                  else none
            else none
      else none
end

/-- Models `json.loads`: parse one value, allow trailing whitespace only. -/
def json_loads (s : String) : Option Json :=
  match parseVal (s.data.length + 1) s.data with
  | some (v, rest) => if skipWs rest = [] then some v else none
  | none => none

/-- Models `ForemanInventory.load_cache_from_cache` (and its two siblings): read a
file's contents and `json.loads` them. -/
def load_cache_from_cache (fileContents : String) : Option Json :=
  json_loads fileContents

mutual
/-- Fuel sufficient for `parseVal` to parse a dumped document. -/
def jfuel : Json → Nat
  | .null => 1
  | .bool _ => 1
  | .num _ => 1
  | .str _ => 1
  | .arr [] => 1
  | .arr (x :: xs) => 1 + elemsFuel x xs
  | .obj [] => 1
  | .obj (p :: ps) => 1 + membersFuel p ps
termination_by v => sizeOf v
decreasing_by
  all_goals
    simp only [Json.arr.sizeOf_spec, Json.obj.sizeOf_spec,
      List.cons.sizeOf_spec, List.nil.sizeOf_spec, Prod.mk.sizeOf_spec]
  all_goals omega

def elemsFuel : Json → List Json → Nat
  | x, [] => 2 + jfuel x
  | x, y :: ys => 1 + jfuel x + elemsFuel y ys
termination_by x xs => 1 + sizeOf x + sizeOf xs
decreasing_by
  all_goals
    simp only [Json.arr.sizeOf_spec, Json.obj.sizeOf_spec,
      List.cons.sizeOf_spec, List.nil.sizeOf_spec, Prod.mk.sizeOf_spec]
  all_goals omega

def membersFuel : (String × Json) → List (String × Json) → Nat
  | (k, v), [] => 2 + jfuel v
  | (k, v), q :: qs => 1 + jfuel v + membersFuel q qs
termination_by p ps => 1 + sizeOf p + sizeOf ps
decreasing_by
  all_goals
    simp only [Json.arr.sizeOf_spec, Json.obj.sizeOf_spec,
      List.cons.sizeOf_spec, List.nil.sizeOf_spec, Prod.mk.sizeOf_spec]
  all_goals omega
end

/-! ## Python-side data model

Python dicts are association lists with unique keys: `pyLookup` is `d[k]`
(`none` standing for `KeyError`), `dictInsert` is `d[k] = v` (an existing
key keeps its position, a new one is appended). -/

inductive PyErr where
  | unboundLocal : PyErr
  | attributeError : PyErr
  | indexError : PyErr
  | valueError : PyErr
  | keyError : PyErr
deriving Repr, DecidableEq

def pyLookup {α : Type} : List (String × α) → String → Option α
  | [], _ => none
  | (k, v) :: d, key => if k = key then some v else pyLookup d key

def dictInsert {α : Type} (d : List (String × α)) (k : String) (v : α) :
    List (String × α) :=
  if (pyLookup d k).isSome then
    d.map (fun p => if p.1 = k then (k, v) else p)
  else d ++ [(k, v)]

/-- Models `ForemanInventory.push`: append `v` to the list at `d[k]`, creating a
one-element list when the key is new. -/
def push (d : List (String × List String)) (k : String) (v : String) :
    List (String × List String) :=
  if (pyLookup d k).isSome then
    d.map (fun p => if p.1 = k then (p.1, p.2 ++ [v]) else p)
  else d ++ [(k, [v])]

/-- Models the value decoding of `_get_all_params_by_id` for one parameter:
`param["value"][0]` raises IndexError on an empty value; a value starting
with `[` is replaced by `json.loads(value)` (ValueError when malformed);
anything else is kept as the literal string. -/
def decode_param_value (v : String) : Except PyErr Json :=
  match v.data with
  | [] => .error .indexError
  | c :: _ =>
    if c = '[' then
      match json_loads v with
      | some j => .ok j
      | none => .error .valueError
    else .ok (.str v)

/-- The `for param in ret:` loop of `_get_all_params_by_id` over the
`(name, value)` pairs of the host's `all_parameters`. -/
def decode_params : List (String × String) → Except PyErr (List (String × Json))
  | [] => .ok []
  | (n, v) :: ps =>
    match decode_param_value v with
    | .error e => .error e
    | .ok j =>
      match decode_params ps with
      | .error e => .error e
      | .ok rest => .ok ((n, j) :: rest)

/-- Models `ForemanInventory._resolve_params`: fold the host's parameter sequence
into a dict keyed by name (later duplicates overwrite earlier ones). -/
def resolve_params (aparams : List (String × Json)) : List (String × Json) :=
  aparams.foldl (fun d p => dictInsert d p.1 p.2) []

/-- A host as `update_cache` consumes it: `host['name']`, the decoded
`all_parameters` pairs its id resolves to, and the raw host document that
`self.cache[dns_name] = host` stores. -/
structure SrvHost where
  name : String
  aparams : List (String × Json)
  raw : Json

/-- Python truthiness of the values a parameter can hold. -/
def pyTruthy : Json → Bool
  | .null => false
  | .bool b => b
  | .num n => n ≠ 0
  | .str s => s ≠ ""
  | .arr xs => !xs.isEmpty
  | .obj kvs => !kvs.isEmpty

/-- The `roles` local of `update_cache`: unassigned, `None`, or a list. -/
inductive RolesVar where
  | unbound : RolesVar
  | noneVal : RolesVar
  | list (roles : List String) : RolesVar
deriving Repr, DecidableEq

def splitCommaAux (cur : List Char) : List Char → List String
  | [] => [String.mk cur]
  | c :: cs =>
    if c = ',' then String.mk cur :: splitCommaAux [] cs
    else splitCommaAux (cur ++ [c]) cs

/-- Python's `s.split(',')`: every comma separates, empty segments kept. -/
def splitRoles (s : String) : List String := splitCommaAux [] s.data

/-- The `try: if params['openshift-role']: roles = ... except KeyError:
roles = None` block.  A missing key sets `roles = None`; a truthy string is
split on commas; a truthy non-string crashes at `.split` with
AttributeError; a falsy value takes neither branch, leaving `roles` at its
previous (possibly unassigned) state. -/
def roles_assign (rv : RolesVar) (p : Option Json) : Except PyErr RolesVar :=
  match p with
  | some v =>
    if pyTruthy v then
      match v with
      | .str s => .ok (.list (splitRoles s))
      | _ => .error .attributeError
    else .ok rv
  | none => .ok .noneVal

/-- The three shared dicts `self.inventory`, `self.cache`, `self.params`. -/
structure InvState where
  inventory : List (String × List String)
  cache : List (String × Json)
  params : List (String × List (String × Json))

def emptyState : InvState := ⟨[], [], []⟩

/-- One iteration of `update_cache`'s host loop: assign `roles`, then
`if roles:` (an UnboundLocalError when it was never assigned) and, when
truthy, push each sanitized role and record the host.  The per-host
`_write_cache()` persists the then-current dicts; the files after the run
hold the final state. -/
def update_host (rv : RolesVar) (st : InvState) (h : SrvHost) :
    Except PyErr (RolesVar × InvState) :=
  match roles_assign rv (pyLookup (resolve_params h.aparams) "openshift-role") with
  | .error e => .error e
  | .ok rv2 =>
    match rv2 with
    | .unbound => .error .unboundLocal
    | .noneVal => .ok (rv2, st)
    | .list rs =>
      if rs.isEmpty then .ok (rv2, st)
      else .ok (rv2,
        { inventory := rs.foldl (fun inv r => push inv (to_safe r) h.name) st.inventory,
          cache := dictInsert st.cache h.name h.raw,
          params := dictInsert st.params h.name (resolve_params h.aparams) })

def update_cache_loop (rv : RolesVar) (st : InvState) :
    List SrvHost → Except PyErr InvState
  | [] => .ok st
  | h :: hs =>
    match update_host rv st h with
    | .error e => .error e
    | .ok (rv2, st2) => update_cache_loop rv2 st2 hs

/-- Models `ForemanInventory.update_cache`.  Note what the source resets:
`self.hosts = dict()` re-creates a dict that nothing else reads, while
`self.inventory`, `self.cache` and `self.params` are mutated in place
starting from whatever they already contain. -/
def update_cache (st : InvState) (hosts : List SrvHost) : Except PyErr InvState :=
  update_cache_loop RolesVar.unbound st hosts

/-- The `_meta.hostvars` loop of `_print_data`: one entry per cached host,
holding `self.params[hostname]` (KeyError if a cached host has no params
entry). -/
def meta_hostvars_loop (params : List (String × List (String × Json))) :
    List (String × Json) → Except PyErr (List (String × List (String × Json)))
  | [] => .ok []
  | (n, _) :: rest =>
    match pyLookup params n with
    | none => .error .keyError
    | some pv =>
      match meta_hostvars_loop params rest with
      | .error e => .error e
      | .ok hv => .ok ((n, pv) :: hv)

def meta_hostvars (st : InvState) :
    Except PyErr (List (String × List (String × Json))) :=
  meta_hostvars_loop st.params st.cache

/-- Models `ForemanInventory.get_host_info`: if the cache dict is empty, load it
from the cache file; if the requested host is absent, refresh via
`update_cache`; if it is still absent, emit `{}`; otherwise emit the cached
host document. -/
def get_host_info (hostArg : String) (cacheFile : List (String × Json))
    (apiHosts : List SrvHost) (st : InvState) :
    Except PyErr (InvState × String) :=
  match pyLookup (if st.cache.isEmpty then cacheFile else st.cache) hostArg with
  | some h =>
    .ok (if st.cache.isEmpty then { st with cache := cacheFile } else st,
      json_format_dict h)
  | none =>
    match update_cache
        (if st.cache.isEmpty then { st with cache := cacheFile } else st)
        apiHosts with
    | .error e => .error e
    | .ok st2 =>
      match pyLookup st2.cache hostArg with
      | none => .ok (st2, json_format_dict (.obj []))
      | some h => .ok (st2, json_format_dict h)

/-- Structural strong induction for `Json` (members of nested lists are
smaller). -/
def jsonStrongInd (motive : Json → Prop)
    (hnull : motive .null) (hbool : ∀ b, motive (.bool b))
    (hnum : ∀ n, motive (.num n)) (hstr : ∀ s, motive (.str s))
    (harr : ∀ xs, (∀ x ∈ xs, motive x) → motive (.arr xs))
    (hobj : ∀ kvs, (∀ p ∈ kvs, motive p.2) → motive (.obj kvs)) :
    ∀ v, motive v
  | .null => hnull
  | .bool b => hbool b
  | .num n => hnum n
  | .str s => hstr s
  | .arr xs => harr xs (fun x _ =>
      jsonStrongInd motive hnull hbool hnum hstr harr hobj x)
  | .obj kvs => hobj kvs (fun p _ =>
      jsonStrongInd motive hnull hbool hnum hstr harr hobj p.2)
termination_by v => sizeOf v
decreasing_by
  · rename_i hx
    have := List.sizeOf_lt_of_mem hx
    simp only [Json.arr.sizeOf_spec]
    omega
  · rename_i hp
    have h1 := List.sizeOf_lt_of_mem hp
    have h2 : sizeOf p.2 < sizeOf p := by
      obtain ⟨a, b⟩ := p
      simp only [Prod.mk.sizeOf_spec]
      omega
    simp only [Json.obj.sizeOf_spec]
    omega

/-! ## Theorems -/

/-- Helper: the cut-off loop agrees with the loop once the fuel exceeds
`total - acc.length`, i.e. the loop finishes within that many iterations. -/
theorem get_json_fuel_eq (pages : Nat → List Nat) (total : Nat) :
    ∀ fuel page acc, total - acc.length < fuel →
      get_json_fuel pages total fuel page acc = get_json pages total page acc := by
  intro fuel
  induction fuel with
  | zero => intro page acc h; omega
  | succ n ih =>
    intro page acc h
    rw [get_json.eq_def]
    simp only [get_json_fuel]
    split
    · rfl
    · split
      · rfl
      · apply ih
        rename_i h1 h2
        simp only [List.length_append] at h1 h2 ⊢
        omega

/-- Helper for C9: one sanitizer output character is never a space. -/
theorem sanitized_char_ne_space (c : Char) :
    (if isSafeChar c then c else '_') ≠ ' ' := by
  by_cases h : isSafeChar c
  · simp only [if_pos h]
    intro he
    subst he
    exact absurd h (by decide)
  · simp only [if_neg h]
    decide

/-- Helper for C9: the per-character sanitizer map is idempotent. -/
theorem sanitized_char_idem (c : Char) :
    (if isSafeChar (if isSafeChar c then c else '_')
      then (if isSafeChar c then c else '_') else '_')
      = (if isSafeChar c then c else '_') := by
  by_cases h : isSafeChar c
  · simp [h]
  · simp [h]

/-- Helper for C9: the list-level sanitizer pass is idempotent. -/
theorem to_safe_data_idem (l : List Char) :
    ((((l.filter (fun c => c ≠ ' ')).map
        (fun c => if isSafeChar c then c else '_')).filter
        (fun c => c ≠ ' ')).map (fun c => if isSafeChar c then c else '_'))
      = (l.filter (fun c => c ≠ ' ')).map
        (fun c => if isSafeChar c then c else '_') := by
  rw [List.filter_eq_self.mpr]
  · rw [List.map_map]
    refine List.map_congr_left ?_
    intro a _
    exact sanitized_char_idem a
  · intro a ha
    rcases List.mem_map.mp ha with ⟨b, _, rfl⟩
    exact decide_eq_true (sanitized_char_ne_space b)

/-- C9: applying the role-name sanitizer twice yields the same result as
applying it once. -/
theorem to_safe_idempotent : ∀ s : String, to_safe (to_safe s) = to_safe s :=
  fun s => congrArg String.mk (to_safe_data_idem s.data)

/-- C1: the cache-validity check is true iff the primary cache file exists,
its modification time plus the max age is strictly in the future, and both
companion files exist; with max-age 60 a primary modified exactly now is
valid, one 61 seconds old is invalid, and a fresh primary with a missing
inventory companion is invalid. -/
theorem cache_validity_spec :
    (∀ (fs : CacheFiles) (age now : Int),
      is_cache_valid fs age now = true ↔
        (fs.cacheExists = true ∧ fs.cacheMtime + age > now ∧
         fs.inventoryExists = true ∧ fs.paramsExists = true))
    ∧ (∀ t : Int, is_cache_valid ⟨true, t, true, true⟩ 60 t = true)
    ∧ (∀ t : Int, is_cache_valid ⟨true, t, true, true⟩ 60 (t + 61) = false)
    ∧ (∀ t : Int, is_cache_valid ⟨true, t, false, true⟩ 60 t = false) := by
  refine ⟨?_, ?_, ?_, ?_⟩
  · intro fs age now
    simp only [is_cache_valid]
    split_ifs with h1 h2 h3 <;> simp_all
  · intro t
    simp only [is_cache_valid]
    split_ifs with h1 h2 h3 <;> simp_all
  · intro t
    simp only [is_cache_valid]
    split_ifs with h1 h2 h3 <;> simp_all
  · intro t
    simp only [is_cache_valid]
    split_ifs with h1 h2 h3 <;> simp_all

/-- C2: the pagination loop terminates within total + 1 page fetches (the
cut-off loop already agrees with the unbounded loop at any fuel above the
total), and on the two mock servers it returns 500 records without a stall
warning for pages 250,250 and 250 records with a stall warning for pages
250,0. -/
theorem pagination_spec :
    (∀ (pages : Nat → List Nat) (total fuel : Nat), total < fuel →
        get_json_fuel pages total fuel 1 [] = get_json pages total 1 [])
    ∧ get_json mockPages1 500 1 [] = (List.replicate 500 0, false)
    ∧ get_json mockPages2 500 1 [] = (List.replicate 250 0, true) := by
  refine ⟨?_, ?_, ?_⟩
  · intro pages total fuel h
    exact get_json_fuel_eq pages total fuel 1 [] (by simpa using h)
  · have h := get_json_fuel_eq mockPages1 500 501 1 [] (by decide)
    rw [← h]
    decide
  · have h := get_json_fuel_eq mockPages2 500 501 1 [] (by decide)
    rw [← h]
    decide

/-- Witness for C2: the termination bound instantiated at the stalling mock
server with total 500 and fuel 501. -/
theorem pagination_spec_witness :
    get_json_fuel mockPages2 500 501 1 [] = get_json mockPages2 500 1 [] :=
  pagination_spec.1 mockPages2 500 501 (by decide)

/-- C3 counterexample: the claim predicts to_safe "foo bar" = "foo_bar" and
to_safe "foo-bar baz" = "foo__bar_baz", but the source first runs
word.replace(" ", ""), which deletes every space instead of replacing it
with an underscore. -/
theorem to_safe_claim_counterexample :
    to_safe "foo bar" = "foobar" ∧ to_safe "foo bar" ≠ "foo_bar" ∧
    to_safe "foo-bar baz" = "foo_barbaz" ∧
    to_safe "foo-bar baz" ≠ "foo__bar_baz" := by
  refine ⟨by decide, by decide, by decide, by decide⟩

/-- Helper for C3: filtering out spaces and then mapping the underscore
substitution is one filterMap pass. -/
theorem filter_then_map_eq_filterMap (l : List Char) :
    (l.filter (fun c => c ≠ ' ')).map (fun c => if isSafeChar c then c else '_')
      = l.filterMap
        (fun c => if c = ' ' then none
                  else some (if isSafeChar c then c else '_')) := by
  induction l with
  | nil => rfl
  | cons c l ih =>
    simp only [decide_not] at ih
    by_cases hc : c = ' '
    · subst hc; simp [ih]
    · simp [hc, ih]

/-- C3 amended: the sanitizer deletes each space character and replaces each
remaining character outside [A-Za-z0-9_] (including non-space whitespace
such as tab) with an underscore; "foo bar" becomes "foobar", "foo-bar baz"
becomes "foo_barbaz", and a tab becomes an underscore. -/
theorem to_safe_amended :
    (∀ s : String, (to_safe s).data = s.data.filterMap
      (fun c => if c = ' ' then none
                else some (if isSafeChar c then c else '_')))
    ∧ to_safe "foo bar" = "foobar"
    ∧ to_safe "foo-bar baz" = "foo_barbaz"
    ∧ to_safe "foo\tbar" = "foo_bar" := by
  refine ⟨?_, by decide, by decide, by decide⟩
  intro s
  exact filter_then_map_eq_filterMap s.data

/-! ### Host filtering and cache rebuild -/

/-- Helper: a host whose resolved parameters lack `openshift-role` sets
`roles = None` and leaves the state untouched. -/
theorem update_host_keyless (rv : RolesVar) (st : InvState) (h : SrvHost)
    (hk : pyLookup (resolve_params h.aparams) "openshift-role" = none) :
    update_host rv st h = .ok (.noneVal, st) := by
  simp [update_host, roles_assign, hk]

/-- Helper: a successful host step either leaves the state unchanged or
records exactly this host's name. -/
theorem update_host_state (rv : RolesVar) (st : InvState) (h : SrvHost)
    (rv2 : RolesVar) (st2 : InvState)
    (hok : update_host rv st h = .ok (rv2, st2)) :
    st2 = st ∨ ∃ rs : List String, st2 =
      { inventory := rs.foldl (fun inv r => push inv (to_safe r) h.name) st.inventory,
        cache := dictInsert st.cache h.name h.raw,
        params := dictInsert st.params h.name (resolve_params h.aparams) } := by
  unfold update_host at hok
  split at hok
  · exact absurd hok (by simp)
  · split at hok
    · exact absurd hok (by simp)
    · simp only [Except.ok.injEq, Prod.mk.injEq] at hok
      exact Or.inl hok.2.symm
    · split at hok
      · simp only [Except.ok.injEq, Prod.mk.injEq] at hok
        exact Or.inl hok.2.symm
      · simp only [Except.ok.injEq, Prod.mk.injEq] at hok
        exact Or.inr ⟨_, hok.2.symm⟩

/-- Helper: `push` never adds a name other than the pushed one to any
group. -/
theorem push_preserves_absent (d : List (String × List String)) (k v n : String)
    (hv : v ≠ n) (hd : ∀ g ∈ d, n ∉ g.2) :
    ∀ g ∈ push d k v, n ∉ g.2 := by
  intro g hg
  unfold push at hg
  split at hg
  · rcases List.mem_map.mp hg with ⟨p, hp, rfl⟩
    split
    · simp only [List.mem_append, List.mem_singleton]
      rintro (hn | hn)
      · exact hd p hp hn
      · exact hv hn.symm
    · exact hd p hp
  · rcases List.mem_append.mp hg with hin | hin
    · exact hd g hin
    · rcases List.mem_singleton.mp hin with rfl
      simp only [List.mem_singleton]
      intro hn
      exact hv hn.symm

/-- Helper: a fold of pushes of one name preserves another name's absence
from every group. -/
theorem foldl_push_preserves_absent (rs : List String) (v n : String)
    (hv : v ≠ n) :
    ∀ d, (∀ g ∈ d, n ∉ g.2) →
      ∀ g ∈ rs.foldl (fun inv r => push inv (to_safe r) v) d, n ∉ g.2 := by
  induction rs with
  | nil => intro d hd; exact hd
  | cons r rs ih =>
    intro d hd
    exact ih (push d (to_safe r) v) (push_preserves_absent d (to_safe r) v n hv hd)

/-- Helper: replacing the value under key `k` does not change a lookup of a
different key. -/
theorem pyLookup_map_replace {α : Type} (k n : String) (v : α) (hk : k ≠ n) :
    ∀ d : List (String × α),
      pyLookup (d.map (fun p => if p.1 = k then (k, v) else p)) n = pyLookup d n := by
  intro d
  induction d with
  | nil => rfl
  | cons p d ih =>
    obtain ⟨a, b⟩ := p
    rw [List.map_cons]
    by_cases hp : a = k
    · rw [if_pos (show (a, b).1 = k from hp)]
      simp only [pyLookup]
      rw [if_neg hk, if_neg (show ¬a = n from fun hn => hk (hp.symm.trans hn))]
      exact ih
    · rw [if_neg (show ¬(a, b).1 = k from hp)]
      simp only [pyLookup]
      by_cases hpn : a = n
      · rw [if_pos hpn, if_pos hpn]
      · rw [if_neg hpn, if_neg hpn]
        exact ih

/-- Helper: appending an entry under a different key does not change a
lookup. -/
theorem pyLookup_append_single {α : Type} (k n : String) (v : α) (hk : k ≠ n) :
    ∀ d : List (String × α), pyLookup (d ++ [(k, v)]) n = pyLookup d n := by
  intro d
  induction d with
  | nil =>
    simp only [List.nil_append, pyLookup]
    rw [if_neg hk]
  | cons p d ih =>
    obtain ⟨a, b⟩ := p
    simp only [List.cons_append, pyLookup]
    by_cases hpn : a = n
    · rw [if_pos hpn, if_pos hpn]
    · rw [if_neg hpn, if_neg hpn]
      exact ih

/-- Helper: inserting under a different key does not change a lookup. -/
theorem pyLookup_dictInsert_ne {α : Type} (d : List (String × α)) (k n : String)
    (v : α) (hk : k ≠ n) : pyLookup (dictInsert d k v) n = pyLookup d n := by
  unfold dictInsert
  split
  · exact pyLookup_map_replace k n v hk d
  · exact pyLookup_append_single k n v hk d

/-- Helper: the state invariant "name `n` is recorded nowhere" is preserved
across the host loop when no fetched host named `n` has the role key. -/
theorem update_loop_preserves_absent (n : String) :
    ∀ (hosts : List SrvHost) (rv : RolesVar) (st st2 : InvState),
      (∀ h ∈ hosts, h.name = n →
        pyLookup (resolve_params h.aparams) "openshift-role" = none) →
      update_cache_loop rv st hosts = .ok st2 →
      ((∀ g ∈ st.inventory, n ∉ g.2) ∧ pyLookup st.cache n = none ∧
        pyLookup st.params n = none) →
      ((∀ g ∈ st2.inventory, n ∉ g.2) ∧ pyLookup st2.cache n = none ∧
        pyLookup st2.params n = none) := by
  intro hosts
  induction hosts with
  | nil =>
    intro rv st st2 _ hok hinv
    simp only [update_cache_loop] at hok
    cases hok
    exact hinv
  | cons h hs ih =>
    intro rv st st2 hkeys hok hinv
    simp only [update_cache_loop] at hok
    cases hstep : update_host rv st h with
    | error e => rw [hstep] at hok; exact absurd hok (by simp)
    | ok p =>
      obtain ⟨rv2, stm⟩ := p
      rw [hstep] at hok
      refine ih rv2 stm st2 (fun h2 hh2 => hkeys h2 (List.mem_cons_of_mem h hh2)) hok ?_
      by_cases hn : h.name = n
      · rw [update_host_keyless rv st h (hkeys h (List.mem_cons_self h hs) hn)] at hstep
        cases hstep
        exact hinv
      · rcases update_host_state rv st h rv2 stm hstep with rfl | ⟨rs, rfl⟩
        · exact hinv
        · refine ⟨foldl_push_preserves_absent rs h.name n hn st.inventory hinv.1, ?_, ?_⟩
          · rw [pyLookup_dictInsert_ne st.cache h.name n h.raw hn]
            exact hinv.2.1
          · rw [pyLookup_dictInsert_ne st.params h.name n _ hn]
            exact hinv.2.2

/-- Helper: hostvars hold exactly the cached names, so a name absent from
the cache is absent from the emitted hostvars. -/
theorem meta_hostvars_absent (n : String)
    (params : List (String × List (String × Json))) :
    ∀ (c : List (String × Json)) hv, meta_hostvars_loop params c = .ok hv →
      pyLookup c n = none → pyLookup hv n = none := by
  intro c
  induction c with
  | nil =>
    intro hv hok _
    simp only [meta_hostvars_loop] at hok
    cases hok
    rfl
  | cons p c ih =>
    intro hv hok hnone
    obtain ⟨m, j⟩ := p
    simp only [meta_hostvars_loop] at hok
    cases hp : pyLookup params m with
    | none => rw [hp] at hok; exact absurd hok (by simp)
    | some pv =>
      rw [hp] at hok
      cases hrec : meta_hostvars_loop params c with
      | error e => rw [hrec] at hok; exact absurd hok (by simp)
      | ok hv2 =>
        rw [hrec] at hok
        simp only [Except.ok.injEq] at hok
        subst hok
        simp only [pyLookup] at hnone ⊢
        by_cases hm : m = n
        · rw [if_pos hm] at hnone; exact absurd hnone (by simp)
        · rw [if_neg hm] at hnone ⊢
          exact ih hv2 hrec hnone

/-- C4: a host fetched during a cache refresh whose resolved parameters
have no `openshift-role` key is absent from every inventory group, from the
cached host map and parameter map, and from the emitted `_meta.hostvars`. -/
theorem host_filter_excluded :
    ∀ (hosts : List SrvHost) (n : String) (st : InvState),
      (∀ h ∈ hosts, h.name = n →
        pyLookup (resolve_params h.aparams) "openshift-role" = none) →
      update_cache emptyState hosts = .ok st →
      (∀ g ∈ st.inventory, n ∉ g.2) ∧
      pyLookup st.cache n = none ∧
      pyLookup st.params n = none ∧
      (∀ hv, meta_hostvars st = .ok hv → pyLookup hv n = none) := by
  intro hosts n st hkeys hok
  have hinv := update_loop_preserves_absent n hosts RolesVar.unbound emptyState st
    hkeys hok ⟨by intro g hg; exact absurd hg (by simp [emptyState]), rfl, rfl⟩
  exact ⟨hinv.1, hinv.2.1, hinv.2.2,
    fun hv hmeta => meta_hostvars_absent n st.params st.cache hv hmeta hinv.2.1⟩

/-- Witness for C4: a one-host refresh where the only host (named "plain")
has no `openshift-role` key. -/
theorem host_filter_excluded_witness :
    (∀ g ∈ (emptyState).inventory, "plain" ∉ g.2) ∧
    pyLookup (emptyState).cache "plain" = none ∧
    pyLookup (emptyState).params "plain" = none ∧
    (∀ hv, meta_hostvars emptyState = .ok hv → pyLookup hv "plain" = none) :=
  host_filter_excluded [⟨"plain", [("cpu", Json.num 4)], Json.null⟩] "plain"
    emptyState (by intro h hh _; cases List.mem_singleton.mp hh; rfl) rfl

/-! ### Wholesale rebuild (C5), parameter decoding (C6), --host fallback
(C7), roles carry-over (C10) -/

/-- C5 (code bug): `update_cache` only re-creates the never-read
`self.hosts` dict; `self.inventory`, `self.cache` and `self.params` keep
whatever they already contain.  Starting from a loaded previous generation
holding host "stale" (absent from the API response), a refresh leaves
"stale" in the group, the host map and the parameter map, and appends
"fresh" next to it — the previous generation survives the refresh. -/
theorem stale_entry_survives_refresh :
    update_cache ⟨[("x", ["stale"])], [("stale", Json.null)], [("stale", [])]⟩
      [⟨"fresh", [("openshift-role", Json.str "x")], Json.bool true⟩]
    = .ok ⟨[("x", ["stale", "fresh"])],
           [("stale", Json.null), ("fresh", Json.bool true)],
           [("stale", []), ("fresh", [("openshift-role", Json.str "x")])]⟩ := rfl

/-- C6 (code bug): `param["value"][0]` raises IndexError when a parameter's
value is the empty string, so the parameter fetch does fail on account of
the value's content (the claim's "kept unchanged, never failing" behavior
holds only for non-empty values). -/
theorem empty_param_value_index_error :
    decode_param_value "" = .error .indexError ∧
    decode_params [("p", "")] = .error .indexError ∧
    decode_param_value "plain" = .ok (.str "plain") := ⟨rfl, rfl, rfl⟩

/-- C7: a `--host` lookup of a name missing from the (possibly
file-loaded) cache forces `update_cache`, and a name still missing after
the refresh yields the pretty-printed empty object `{}`. -/
theorem ghost_host_empty_object :
    (∀ (hostArg : String) (cacheFile : List (String × Json))
        (apiHosts : List SrvHost) (st st2 : InvState),
      pyLookup (if st.cache.isEmpty then cacheFile else st.cache) hostArg = none →
      update_cache (if st.cache.isEmpty then { st with cache := cacheFile } else st)
        apiHosts = .ok st2 →
      pyLookup st2.cache hostArg = none →
      get_host_info hostArg cacheFile apiHosts st
        = .ok (st2, json_format_dict (Json.obj [])))
    ∧ json_format_dict (Json.obj []) = "\x7b\x7d" := by
  constructor
  · intro hostArg cacheFile apiHosts st st2 h1 h2 h3
    unfold get_host_info
    simp only [h1, h2, h3]
  · simp [json_format_dict, canon, sortByKey, jdump]

/-- Witness for C7: requesting "ghost" with a loaded cache holding only
"old" and an empty API response prints `{}`. -/
theorem ghost_host_empty_object_witness :
    get_host_info "ghost" [("old", Json.null)] [] ⟨[], [], []⟩
      = .ok (⟨[], [("old", Json.null)], []⟩, json_format_dict (Json.obj [])) :=
  ghost_host_empty_object.1 "ghost" [("old", Json.null)] [] ⟨[], [], []⟩
    ⟨[], [("old", Json.null)], []⟩ rfl rfl rfl

/-- C10 counterexample: the claim predicts that host "c" (whose
`openshift-role` is present but empty, processed third) is appended to the
groups of the most recently processed role-bearing host "a" and recorded
under those borrowed roles; instead the intervening keyless host "b" left
`roles = None`, so "c" is silently skipped: group "x" stays ["a"] and "c"
is absent from the host and parameter caches. -/
theorem roles_carryover_counterexample :
    update_cache emptyState
      [⟨"a", [("openshift-role", Json.str "x")], Json.null⟩,
       ⟨"b", [], Json.null⟩,
       ⟨"c", [("openshift-role", Json.str "")], Json.null⟩]
    = .ok ⟨[("x", ["a"])], [("a", Json.null)],
           [("a", [("openshift-role", Json.str "x")])]⟩ := rfl

/-- C10 amended: a host whose `openshift-role` is present but falsy leaves
the `roles` local at the value the previous iteration left there: on the
first host this reads an unassigned local and the refresh dies with
UnboundLocalError; when the inherited value is a role list the host is
recorded under those borrowed roles; when it is None (previous host lacked
the key) the host is silently skipped. -/
theorem roles_carryover_amended :
    (∀ (st : InvState) (h : SrvHost) (hs : List SrvHost) (v : Json),
        pyLookup (resolve_params h.aparams) "openshift-role" = some v →
        pyTruthy v = false →
        update_cache st (h :: hs) = .error .unboundLocal)
    ∧ (∀ (st : InvState) (h : SrvHost) (v : Json),
        pyLookup (resolve_params h.aparams) "openshift-role" = some v →
        pyTruthy v = false →
        update_host RolesVar.noneVal st h = .ok (RolesVar.noneVal, st))
    ∧ (∀ (st : InvState) (h : SrvHost) (v : Json) (r : String) (rs : List String),
        pyLookup (resolve_params h.aparams) "openshift-role" = some v →
        pyTruthy v = false →
        update_host (RolesVar.list (r :: rs)) st h
          = .ok (RolesVar.list (r :: rs),
              { inventory := (r :: rs).foldl
                  (fun inv ro => push inv (to_safe ro) h.name) st.inventory,
                cache := dictInsert st.cache h.name h.raw,
                params := dictInsert st.params h.name (resolve_params h.aparams) })) := by
  refine ⟨?_, ?_, ?_⟩
  · intro st h hs v hv htr
    simp [update_cache, update_cache_loop, update_host, roles_assign, hv, htr]
  · intro st h v hv htr
    simp [update_host, roles_assign, hv, htr]
  · intro st h v r rs hv htr
    simp [update_host, roles_assign, hv, htr]

/-- Witness for C10: the empty-valued first host aborts the refresh, and
the same host starting from an inherited role list is recorded under it. -/
theorem roles_carryover_amended_witness :
    update_cache emptyState [⟨"c", [("openshift-role", Json.str "")], Json.null⟩]
      = .error .unboundLocal ∧
    update_host (RolesVar.list ["x"]) emptyState
        ⟨"c", [("openshift-role", Json.str "")], Json.null⟩
      = .ok (RolesVar.list ["x"],
          { inventory := ["x"].foldl
              (fun inv ro => push inv (to_safe ro) "c") emptyState.inventory,
            cache := dictInsert emptyState.cache "c" Json.null,
            params := dictInsert emptyState.params "c"
              (resolve_params [("openshift-role", Json.str "")]) }) :=
  ⟨roles_carryover_amended.1 emptyState
      ⟨"c", [("openshift-role", Json.str "")], Json.null⟩ [] (Json.str "") rfl rfl,
   roles_carryover_amended.2.2 emptyState
      ⟨"c", [("openshift-role", Json.str "")], Json.null⟩ (Json.str "") "x" [] rfl rfl⟩

/-! ### JSON canonical form -/

/-- Helper: the code-point order on char lists is total. -/
theorem charListLe_total : ∀ a b : List Char,
    charListLe a b = true ∨ charListLe b a = true := by
  intro a
  induction a with
  | nil => intro b; left; rfl
  | cons x xs ih =>
    intro b
    cases b with
    | nil => right; rfl
    | cons y ys =>
      simp only [charListLe]
      by_cases h1 : x.toNat < y.toNat
      · left; simp [h1]
      · by_cases h2 : y.toNat < x.toNat
        · right; simp [h2]
        · rcases ih ys with h | h
          · left; simp [h1, h2, h]
          · right; simp [h1, h2, h]

/-- Helper: the code-point order on char lists is transitive. -/
theorem charListLe_trans : ∀ a b c : List Char,
    charListLe a b = true → charListLe b c = true → charListLe a c = true := by
  intro a
  induction a with
  | nil => intro b c _ _; rfl
  | cons x xs ih =>
    intro b c hab hbc
    cases b with
    | nil => simp [charListLe] at hab
    | cons y ys =>
      cases c with
      | nil => simp [charListLe] at hbc
      | cons z zs =>
        simp only [charListLe] at hab hbc ⊢
        by_cases h1 : x.toNat < y.toNat
        · by_cases h2 : y.toNat < z.toNat
          · simp [show x.toNat < z.toNat by omega]
          · by_cases h3 : z.toNat < y.toNat
            · simp [h2, h3] at hbc
            · simp [show x.toNat < z.toNat by omega]
        · by_cases h4 : y.toNat < x.toNat
          · simp [h1, h4] at hab
          · by_cases h2 : y.toNat < z.toNat
            · simp [show x.toNat < z.toNat by omega]
            · by_cases h3 : z.toNat < y.toNat
              · simp [h2, h3] at hbc
              · have hxz : ¬x.toNat < z.toNat := by omega
                have hzx : ¬z.toNat < x.toNat := by omega
                rw [if_neg h1, if_neg h4] at hab
                rw [if_neg h2, if_neg h3] at hbc
                rw [if_neg hxz, if_neg hzx]
                exact ih ys zs hab hbc

/-- Helper: sorting twice is sorting once. -/
theorem sortByKey_idem (l : List (String × Json)) :
    sortByKey (sortByKey l) = sortByKey l := by
  haveI : IsTotal (String × Json) keyLeP :=
    ⟨fun a b => charListLe_total a.1.data b.1.data⟩
  haveI : IsTrans (String × Json) keyLeP :=
    ⟨fun a b c => charListLe_trans a.1.data b.1.data c.1.data⟩
  exact List.Sorted.insertionSort_eq (List.sorted_insertionSort keyLeP l)

/-- Helper: sorting permutes, so membership is unchanged. -/
theorem mem_sortByKey {a : String × Json} {l : List (String × Json)} :
    a ∈ sortByKey l ↔ a ∈ l :=
  (List.perm_insertionSort keyLeP l).mem_iff

/-- Helper: `canonList` is mapping `canon`. -/
theorem canonList_eq_map : ∀ l : List Json, canonList l = l.map canon := by
  intro l
  induction l with
  | nil => rfl
  | cons x xs ih => simp only [canonList, List.map_cons, ih]

/-- Helper: `canonObj` is mapping `canon` over the values. -/
theorem canonObj_eq_map : ∀ l : List (String × Json),
    canonObj l = l.map (fun p => (p.1, canon p.2)) := by
  intro l
  induction l with
  | nil => rfl
  | cons p l ih =>
    obtain ⟨k, v⟩ := p
    simp only [canonObj, List.map_cons, ih]

/-- Helper: mapping over the values leaves a list of already-canonical
values unchanged. -/
theorem canonObj_eq_self (l : List (String × Json))
    (h : ∀ p ∈ l, canon p.2 = p.2) : canonObj l = l := by
  rw [canonObj_eq_map]
  induction l with
  | nil => rfl
  | cons p l ih =>
    simp only [List.map_cons]
    rw [h p (List.mem_cons_self p l)]
    rw [ih (fun q hq => h q (List.mem_cons_of_mem p hq))]

/-- Helper: canonicalization is idempotent. -/
theorem canon_idem : ∀ v : Json, canon (canon v) = canon v := by
  refine jsonStrongInd _ rfl (fun b => rfl) (fun n => rfl) (fun s => rfl) ?_ ?_
  · intro xs ih
    simp only [canon, canonList_eq_map, List.map_map]
    congr 1
    exact List.map_congr_left (fun x hx => ih x hx)
  · intro kvs ih
    simp only [canon]
    congr 1
    have h1 : ∀ p ∈ sortByKey (canonObj kvs), canon p.2 = p.2 := by
      intro p hp
      rw [canonObj_eq_map] at hp
      rcases List.mem_map.mp (mem_sortByKey.mp hp) with ⟨q, hq, rfl⟩
      exact ih q hq
    rw [canonObj_eq_self _ h1]
    exact sortByKey_idem (canonObj kvs)

/-! ### Number printing round trip -/

/-- Helper: decoding a hex digit character gives back the digit. -/
theorem hexVal_hexDig : ∀ d : Nat, d < 16 → hexVal (hexDig d) = some d := by decide

/-- Helper: decimal digit characters are digits. -/
theorem isDigitChar_hexDig : ∀ d : Nat, d < 10 → isDigitChar (hexDig d) = true := by
  decide

/-- Helper: decoding a decimal digit character gives back the digit. -/
theorem digitVal_hexDig : ∀ d : Nat, d < 10 → digitVal (hexDig d) = d := by decide

/-- Helper: every character `natDigits` emits is a decimal digit. -/
theorem natDigits_all_digits : ∀ n : Nat, ∀ c ∈ natDigits n, isDigitChar c = true := by
  intro n
  induction n using Nat.strong_induction_on with
  | _ n ih =>
    intro c hc
    rw [natDigits] at hc
    split at hc
    · rcases List.mem_singleton.mp hc with rfl
      exact isDigitChar_hexDig n (by omega)
    · rcases List.mem_append.mp hc with h | h
      · exact ih (n / 10) (Nat.div_lt_self (by omega) (by omega)) c h
      · rcases List.mem_singleton.mp h with rfl
        exact isDigitChar_hexDig _ (Nat.mod_lt _ (by omega))

/-- Helper: `natDigits` is never empty. -/
theorem natDigits_ne_nil (n : Nat) : natDigits n ≠ [] := by
  rw [natDigits]
  split
  · simp
  · simp

/-- Helper: a maximal digit run followed by a non-digit is split back off
unchanged. -/
theorem takeDigits_all (l rest : List Char) (hl : ∀ c ∈ l, isDigitChar c = true)
    (hr : headNotDigit rest = true) : takeDigits (l ++ rest) = (l, rest) := by
  induction l with
  | nil =>
    cases rest with
    | nil => rfl
    | cons c cs =>
      simp only [headNotDigit, Bool.not_eq_true'] at hr
      simp [takeDigits, hr]
  | cons c l ih =>
    have hc := hl c (List.mem_cons_self c l)
    simp only [List.cons_append, takeDigits, hc, if_pos, List.append_eq]
    rw [ih (fun x hx => hl x (List.mem_cons_of_mem c hx))]

/-- Helper: folding the digits of `n` back together gives `n`. -/
theorem decodeDigits_natDigits : ∀ n : Nat, decodeDigits (natDigits n) = n := by
  intro n
  induction n using Nat.strong_induction_on with
  | _ n ih =>
    rw [natDigits]
    split
    · simp only [decodeDigits, List.foldl_cons, List.foldl_nil]
      rw [digitVal_hexDig n (by omega)]
      omega
    · simp only [decodeDigits, List.foldl_append, List.foldl_cons, List.foldl_nil]
      have h1 := ih (n / 10) (Nat.div_lt_self (by omega) (by omega))
      simp only [decodeDigits] at h1
      rw [h1, digitVal_hexDig _ (Nat.mod_lt _ (by omega))]
      omega

/-- Helper: digit characters differ from the listed punctuation heads. -/
theorem isDigitChar_toNat {c : Char} (h : isDigitChar c = true) :
    48 ≤ c.toNat ∧ c.toNat ≤ 57 := by
  simp only [isDigitChar, Bool.and_eq_true, decide_eq_true_eq] at h
  exact h

/-- Helper: parsing the printed digits of `n` yields `n` and the rest. -/
theorem parseIntTok_natDigits (m : Nat) (rest : List Char)
    (hr : headNotDigit rest = true) :
    parseIntTok (natDigits m ++ rest) = some ((m : Int), rest) := by
  cases hnd : natDigits m with
  | nil => exact absurd hnd (natDigits_ne_nil m)
  | cons d ds =>
    have hdd : isDigitChar d = true :=
      natDigits_all_digits m d (by rw [hnd]; exact List.mem_cons_self d ds)
    have hdm : d ≠ '-' := by
      intro he
      have := isDigitChar_toNat hdd
      rw [he] at this
      simp at this
    simp only [List.cons_append, parseIntTok, if_neg hdm]
    have ht : takeDigits (d :: (ds ++ rest)) = (d :: ds, rest) := by
      rw [show d :: (ds ++ rest) = (d :: ds) ++ rest from rfl]
      rw [← hnd]
      exact takeDigits_all (natDigits m) rest (natDigits_all_digits m) hr
    rw [ht]
    have hdec : decodeDigits (d :: ds) = m := by
      rw [← hnd]; exact decodeDigits_natDigits m
    simp [hdec]

/-- Helper: parsing a printed integer yields it back. -/
theorem parseIntTok_printInt (n : Int) (rest : List Char)
    (hr : headNotDigit rest = true) :
    parseIntTok (printInt n ++ rest) = some (n, rest) := by
  unfold printInt
  split
  · rename_i hneg
    cases hnd : natDigits n.natAbs with
    | nil => exact absurd hnd (natDigits_ne_nil _)
    | cons d ds =>
      simp only [List.cons_append, parseIntTok, if_pos rfl, if_true]
      have ht : takeDigits (d :: (ds ++ rest)) = (d :: ds, rest) := by
        have h0 := takeDigits_all (natDigits n.natAbs) rest (natDigits_all_digits _) hr
        rw [hnd] at h0
        simpa using h0
      rw [ht]
      have hdec : decodeDigits (d :: ds) = n.natAbs := by
        rw [← hnd]; exact decodeDigits_natDigits _
      simp [hdec]
      rw [abs_of_neg hneg, neg_neg]
  · rename_i hpos
    rw [parseIntTok_natDigits n.natAbs rest hr]
    have : ((n.natAbs : Int)) = n := by omega
    rw [this]

/-! ### String escaping round trip -/

/-- Helper: a scalar value is below the surrogate range or above it. -/
theorem char_toNat_valid (c : Char) :
    c.toNat < 0xD800 ∨ (0xDFFF < c.toNat ∧ c.toNat < 0x110000) := by
  have h := c.valid
  simp only [UInt32.isValidChar, Nat.isValidChar] at h
  rcases h with h | h
  · left; exact h
  · right; exact h

/-- Helper: whitespace prefixes are skipped. -/
theorem skipWs_append_ws (l : List Char) (h : ∀ c ∈ l, isWsChar c = true)
    (cs : List Char) : skipWs (l ++ cs) = skipWs cs := by
  induction l with
  | nil => rfl
  | cons c l ih =>
    simp only [List.cons_append, skipWs, h c (List.mem_cons_self c l), if_pos]
    exact ih (fun x hx => h x (List.mem_cons_of_mem c hx))

/-- Helper: a non-whitespace head stops the skipping. -/
theorem skipWs_cons_not (c : Char) (h : isWsChar c = false) :
    ∀ cs : List Char, skipWs (c :: cs) = c :: cs := by
  intro cs
  simp [skipWs, h]

/-- Helper: indentation is whitespace. -/
theorem ind_ws (lvl : Nat) : ∀ c ∈ ind lvl, isWsChar c = true := by
  intro c hc
  rw [List.eq_of_mem_replicate hc]
  rfl

/-- Helper: the value parser ignores leading whitespace. -/
theorem parseVal_ws_lead (f : Nat) (l cs : List Char)
    (h : ∀ c ∈ l, isWsChar c = true) :
    parseVal f (l ++ cs) = parseVal f cs := by
  cases f with
  | zero => rfl
  | succ f => simp only [parseVal, skipWs_append_ws l h cs]

/-- Helper: reading back four printed hex digits gives the number. -/
theorem hex4Val_hex4 (n : Nat) (rest : List Char) (hn : n < 0x10000) :
    hex4Val (hex4 n ++ rest) = some (n, rest) := by
  have e1 : hexVal (hexDig (n / 4096 % 16)) = some (n / 4096 % 16) :=
    hexVal_hexDig _ (Nat.mod_lt _ (by omega))
  have e2 : hexVal (hexDig (n / 256 % 16)) = some (n / 256 % 16) :=
    hexVal_hexDig _ (Nat.mod_lt _ (by omega))
  have e3 : hexVal (hexDig (n / 16 % 16)) = some (n / 16 % 16) :=
    hexVal_hexDig _ (Nat.mod_lt _ (by omega))
  have e4 : hexVal (hexDig (n % 16)) = some (n % 16) :=
    hexVal_hexDig _ (Nat.mod_lt _ (by omega))
  simp only [hex4, List.cons_append, List.nil_append, hex4Val, e1, e2, e3, e4]
  have hsum : n / 4096 % 16 * 4096 + n / 256 % 16 * 256 + n / 16 % 16 * 16 + n % 16
      = n := by omega
  rw [hsum]

/-- Helper: scanner equations for concrete heads. -/
theorem parseStrAux_quote (f : Nat) (acc rest : List Char) :
    parseStrAux (f + 1) acc ('"' :: rest) = some (String.mk acc, rest) := rfl

/-- Helper: the scanner hands a backslash over to the escape decoder. -/
theorem parseStrAux_back (f : Nat) (acc rest : List Char) :
    parseStrAux (f + 1) acc ('\\' :: rest)
      = match decodeEsc rest with
        | some (x, rest2) => parseStrAux f (acc ++ [x]) rest2
        | none => none := rfl

/-- Helper: an ordinary character is taken verbatim. -/
theorem parseStrAux_plain (f : Nat) (acc rest : List Char) (c : Char)
    (h1 : ¬c = '"') (h2 : ¬c = '\\') :
    parseStrAux (f + 1) acc (c :: rest) = parseStrAux f (acc ++ [c]) rest := by
  simp only [parseStrAux]
  rw [if_neg h1, if_neg h2]

/-- Helper: decoding a printed surrogate pair recovers the combined scalar
value. -/
theorem decodeU_pair (n m : Nat) (t : List Char)
    (hn : n < 0x10000) (hm : m < 0x10000)
    (hp1 : 0xD800 ≤ n ∧ n ≤ 0xDBFF) (hp2 : 0xDC00 ≤ m ∧ m ≤ 0xDFFF) :
    decodeU (hex4 n ++ ('\\' :: 'u' :: (hex4 m ++ t)))
      = some (Char.ofNat (0x10000 + (n - 0xD800) * 0x400 + (m - 0xDC00)), t) := by
  unfold decodeU
  rw [hex4Val_hex4 _ _ hn]
  simp only [if_pos hp1]
  simp only [and_self, if_true]
  rw [hex4Val_hex4 _ _ hm]
  simp only [if_pos hp2]

/-- Helper: the escape decoder on a `u`. -/
theorem decodeEsc_u (r : List Char) : decodeEsc ('u' :: r) = decodeU r := rfl

/-- Helper: unescaping one escaped character recovers it. -/
theorem parseStrAux_escChar (c : Char) (f : Nat) (acc t : List Char) :
    parseStrAux (f + 1) acc (escChar c ++ t) = parseStrAux f (acc ++ [c]) t := by
  unfold escChar
  by_cases h1 : c = '"'
  · subst h1; rw [if_pos rfl]; rfl
  rw [if_neg h1]
  by_cases h2 : c = '\\'
  · subst h2; rw [if_pos rfl]; rfl
  rw [if_neg h2]
  by_cases h3 : c = '\x08'
  · subst h3; rw [if_pos rfl]; rfl
  rw [if_neg h3]
  by_cases h4 : c = '\x0C'
  · subst h4; rw [if_pos rfl]; rfl
  rw [if_neg h4]
  by_cases h5 : c = '\n'
  · subst h5; rw [if_pos rfl]; rfl
  rw [if_neg h5]
  by_cases h6 : c = '\r'
  · subst h6; rw [if_pos rfl]; rfl
  rw [if_neg h6]
  by_cases h7 : c = '\t'
  · subst h7; rw [if_pos rfl]; rfl
  rw [if_neg h7]
  by_cases h8 : 0x20 ≤ c.toNat ∧ c.toNat ≤ 0x7E
  · rw [if_pos h8]
    rw [List.singleton_append]
    exact parseStrAux_plain f acc t c h1 h2
  rw [if_neg h8]
  by_cases h9 : c.toNat < 0x10000
  · rw [if_pos h9]
    have hns1 : ¬(0xD800 ≤ c.toNat ∧ c.toNat ≤ 0xDBFF) := by
      rcases char_toNat_valid c with h | h <;> omega
    have hns2 : ¬(0xDC00 ≤ c.toNat ∧ c.toNat ≤ 0xDFFF) := by
      rcases char_toNat_valid c with h | h <;> omega
    rw [List.cons_append, List.cons_append, parseStrAux_back, decodeEsc_u]
    unfold decodeU
    rw [hex4Val_hex4 c.toNat t h9]
    simp only [if_neg hns1, if_neg hns2, Char.ofNat_toNat]
  · rw [if_neg h9]
    have hv : c.toNat < 0x110000 := by
      rcases char_toNat_valid c with h | h <;> omega
    have hp1 : 0xD800 ≤ 0xD800 + (c.toNat - 0x10000) / 0x400 ∧
        0xD800 + (c.toNat - 0x10000) / 0x400 ≤ 0xDBFF := by omega
    have hp2 : 0xDC00 ≤ 0xDC00 + (c.toNat - 0x10000) % 0x400 ∧
        0xDC00 + (c.toNat - 0x10000) % 0x400 ≤ 0xDFFF := by omega
    have hdec : 0x10000 + (0xD800 + (c.toNat - 0x10000) / 0x400 - 0xD800) * 0x400
        + (0xDC00 + (c.toNat - 0x10000) % 0x400 - 0xDC00) = c.toNat := by omega
    rw [List.append_assoc, List.cons_append, List.cons_append,
      parseStrAux_back, decodeEsc_u]
    rw [show ('\\' :: 'u' :: hex4 (0xDC00 + (c.toNat - 0x10000) % 0x400)) ++ t
        = '\\' :: 'u' :: (hex4 (0xDC00 + (c.toNat - 0x10000) % 0x400) ++ t) from by
      simp]
    rw [decodeU_pair _ _ t (by omega) (by omega) hp1 hp2]
    simp only [hdec, Char.ofNat_toNat]

/-- Helper: scanning an escaped string body up to its closing quote
recovers the string. -/
theorem parseStrAux_escString : ∀ (l : List Char) (fuel : Nat) (acc rest : List Char),
    l.length < fuel →
    parseStrAux fuel acc (escString l ++ ('"' :: rest))
      = some (String.mk (acc ++ l), rest) := by
  intro l
  induction l with
  | nil =>
    intro fuel acc rest hf
    cases fuel with
    | zero => omega
    | succ f => simp [escString, parseStrAux]
  | cons c l ih =>
    intro fuel acc rest hf
    cases fuel with
    | zero => simp at hf
    | succ f =>
      simp only [escString, List.append_assoc]
      rw [parseStrAux_escChar c f acc (escString l ++ ('"' :: rest))]
      rw [ih f (acc ++ [c]) rest (by simp at hf ⊢; omega)]
      simp

/-- Helper: escaping never shrinks a string. -/
theorem escChar_length (c : Char) : 1 ≤ (escChar c).length := by
  unfold escChar
  split_ifs <;> simp [hex4]

/-- Helper: the escaped body is at least as long as the string. -/
theorem escString_length : ∀ l : List Char, l.length ≤ (escString l).length := by
  intro l
  induction l with
  | nil => simp [escString]
  | cons c l ih =>
    simp only [escString, List.length_append, List.length_cons]
    have := escChar_length c
    omega

/-! ### Parsing a dumped document -/

/-- Helper: characters with different code points differ. -/
theorem ne_of_toNat_ne {c d : Char} (h : c.toNat ≠ d.toNat) : c ≠ d :=
  fun he => h (he ▸ rfl)

/-- Helper: a decimal digit is not whitespace and not one of the parser's
dispatch characters. -/
theorem digit_char_facts {c : Char} (h : isDigitChar c = true) :
    isWsChar c = false ∧ c ≠ 'n' ∧ c ≠ 't' ∧ c ≠ 'f' ∧ c ≠ '"' ∧ c ≠ '[' ∧
    c ≠ '\x7b' ∧ c ≠ ']' ∧ c ≠ '\x7d' ∧ c ≠ ',' := by
  have hb := isDigitChar_toNat h
  have v1 : ('n' : Char).toNat = 110 := rfl
  have v2 : ('t' : Char).toNat = 116 := rfl
  have v3 : ('f' : Char).toNat = 102 := rfl
  have v4 : ('"' : Char).toNat = 34 := rfl
  have v5 : ('[' : Char).toNat = 91 := rfl
  have v6 : ('\x7b' : Char).toNat = 123 := rfl
  have v7 : (']' : Char).toNat = 93 := rfl
  have v8 : ('\x7d' : Char).toNat = 125 := rfl
  have v9 : (',' : Char).toNat = 44 := rfl
  refine ⟨?_, ?_, ?_, ?_, ?_, ?_, ?_, ?_, ?_, ?_⟩
  · simp only [isWsChar, Bool.or_eq_false_iff, decide_eq_false_iff_not]
    omega
  · exact ne_of_toNat_ne (by omega)
  · exact ne_of_toNat_ne (by omega)
  · exact ne_of_toNat_ne (by omega)
  · exact ne_of_toNat_ne (by omega)
  · exact ne_of_toNat_ne (by omega)
  · exact ne_of_toNat_ne (by omega)
  · exact ne_of_toNat_ne (by omega)
  · exact ne_of_toNat_ne (by omega)
  · exact ne_of_toNat_ne (by omega)

/-- Helper: the first printed character of any value is not whitespace and
not a closing bracket, closing brace or comma. -/
theorem jdump_head (lvl : Nat) (v : Json) :
    ∃ c cs, jdump lvl v = c :: cs ∧ isWsChar c = false ∧ c ≠ ']' ∧
      c ≠ '\x7d' ∧ c ≠ ',' := by
  cases v with
  | null =>
    exact ⟨'n', ['u', 'l', 'l'], by simp [jdump], by decide, by decide,
      by decide, by decide⟩
  | bool b =>
    cases b with
    | false => exact ⟨'f', ['a', 'l', 's', 'e'], by simp [jdump], by decide,
        by decide, by decide, by decide⟩
    | true => exact ⟨'t', ['r', 'u', 'e'], by simp [jdump], by decide,
        by decide, by decide, by decide⟩
  | num n =>
    by_cases hneg : n < 0
    · refine ⟨'-', natDigits n.natAbs, ?_, by decide, by decide, by decide,
        by decide⟩
      simp [jdump, printInt, hneg]
    · cases hnd : natDigits n.natAbs with
      | nil => exact absurd hnd (natDigits_ne_nil _)
      | cons d ds =>
        have hdd : isDigitChar d = true :=
          natDigits_all_digits _ d (by rw [hnd]; exact List.mem_cons_self d ds)
        have hf := digit_char_facts hdd
        refine ⟨d, ds, ?_, hf.1, hf.2.2.2.2.2.2.2.1, hf.2.2.2.2.2.2.2.2.1,
          hf.2.2.2.2.2.2.2.2.2⟩
        simp [jdump, printInt, hneg, hnd]
  | str s =>
    exact ⟨'"', escString s.data ++ ['"'], by simp [jdump, dumpStr], by decide,
      by decide, by decide, by decide⟩
  | arr xs =>
    cases xs with
    | nil => exact ⟨'[', [']'], by simp [jdump], by decide, by decide,
        by decide, by decide⟩
    | cons x xs =>
      exact ⟨'[', '\n' :: (jdumpElems (lvl + 1) x xs ++ '\n' :: (ind lvl ++ [']'])),
        by simp [jdump], by decide, by decide, by decide, by decide⟩
  | obj kvs =>
    cases kvs with
    | nil => exact ⟨'\x7b', ['\x7d'], by simp [jdump], by decide, by decide,
        by decide, by decide⟩
    | cons p ps =>
      exact ⟨'\x7b',
        '\n' :: (jdumpMembers (lvl + 1) p ps ++ '\n' :: (ind lvl ++ ['\x7d'])),
        by simp [jdump], by decide, by decide, by decide, by decide⟩

/-- Helper: a head that is no keyword, quote or bracket makes the parser
try an integer token. -/
theorem parseVal_not_special (f : Nat) (c : Char) (cs : List Char)
    (hws : isWsChar c = false) (hn : c ≠ 'n') (ht : c ≠ 't') (hf : c ≠ 'f')
    (hq : c ≠ '"') (hb : c ≠ '[') (ho : c ≠ '\x7b') :
    parseVal (f + 1) (c :: cs)
      = match parseIntTok (c :: cs) with
        | some (n, r) => some (.num n, r)
        | none => none := by
  simp only [parseVal, skipWs_cons_not c hws cs]
  rw [if_neg hn, if_neg ht, if_neg hf, if_neg hq, if_neg hb, if_neg ho]

/-- Helper: a newline then indentation is all whitespace. -/
theorem nl_ind_ws (lvl : Nat) : ∀ c ∈ '\n' :: ind lvl, isWsChar c = true := by
  intro c hc
  rcases List.mem_cons.mp hc with rfl | hc2
  · rfl
  · exact ind_ws lvl c hc2

/-- Helper: skipping the newline-plus-indentation layout prefix. -/
theorem skipWs_print_tail (lvl : Nat) (cs : List Char) :
    skipWs ('\n' :: (ind lvl ++ cs)) = skipWs cs := by
  rw [show '\n' :: (ind lvl ++ cs) = ('\n' :: ind lvl) ++ cs from rfl]
  exact skipWs_append_ws _ (nl_ind_ws lvl) cs

/-- Helper: a single space is skipped by the value parser. -/
theorem parseVal_space (f : Nat) (cs : List Char) :
    parseVal f (' ' :: cs) = parseVal f cs := by
  cases f with
  | zero => rfl
  | succ f =>
    simp only [parseVal]
    rw [show skipWs (' ' :: cs) = skipWs cs from by simp [skipWs, isWsChar]]

/-- Helper: the element loop consumes the printed elements of a non-empty
array up to and including the closing bracket. -/
theorem parseElems_print (lvl : Nat) :
    ∀ (xs : List Json) (x : Json),
      (∀ y ∈ x :: xs, ∀ (lvl2 : Nat) (rest2 : List Char) (f2 : Nat),
        jfuel y ≤ f2 → headNotDigit rest2 = true →
        parseVal f2 (jdump lvl2 y ++ rest2) = some (y, rest2)) →
      ∀ (f : Nat) (rest : List Char), elemsFuel x xs ≤ f →
      parseElems f
          ('\n' :: (jdumpElems (lvl + 1) x xs ++ ('\n' :: (ind lvl ++ (']' :: rest)))))
        = some (x :: xs, rest) := by
  intro xs
  induction xs with
  | nil =>
    intro x hyp f rest hf
    cases f with
    | zero => simp [elemsFuel] at hf
    | succ f1 =>
      have hx := hyp x (List.mem_cons_self x []) (lvl + 1)
        ('\n' :: (ind lvl ++ (']' :: rest))) f1
        (by simp [elemsFuel] at hf; omega) rfl
      simp only [parseElems, jdumpElems]
      rw [show '\n' :: ((ind (lvl + 1) ++ jdump (lvl + 1) x)
            ++ ('\n' :: (ind lvl ++ (']' :: rest))))
          = ('\n' :: ind (lvl + 1)) ++ (jdump (lvl + 1) x
            ++ ('\n' :: (ind lvl ++ (']' :: rest)))) from by simp]
      rw [parseVal_ws_lead f1 _ _ (nl_ind_ws (lvl + 1))]
      simp only [hx, skipWs_print_tail, skipWs_cons_not ']' (by decide)]
      simp
  | cons y ys ih =>
    intro x hyp f rest hf
    cases f with
    | zero => simp [elemsFuel] at hf
    | succ f1 =>
      have hx := hyp x (List.mem_cons_self x (y :: ys)) (lvl + 1)
        (',' :: '\n' :: (jdumpElems (lvl + 1) y ys
          ++ ('\n' :: (ind lvl ++ (']' :: rest))))) f1
        (by simp [elemsFuel] at hf; omega) rfl
      simp only [parseElems, jdumpElems]
      rw [show '\n' :: ((ind (lvl + 1) ++ (jdump (lvl + 1) x
            ++ ',' :: '\n' :: jdumpElems (lvl + 1) y ys))
            ++ ('\n' :: (ind lvl ++ (']' :: rest))))
          = ('\n' :: ind (lvl + 1)) ++ (jdump (lvl + 1) x
            ++ (',' :: '\n' :: (jdumpElems (lvl + 1) y ys
              ++ ('\n' :: (ind lvl ++ (']' :: rest)))))) from by simp]
      rw [parseVal_ws_lead f1 _ _ (nl_ind_ws (lvl + 1))]
      have hrec := ih y (fun z hz => hyp z (List.mem_cons_of_mem x hz)) f1 rest
        (by simp [elemsFuel] at hf ⊢; omega)
      simp only [hx, skipWs_cons_not ',' (by decide), hrec]
      simp

/-- Helper: the member loop consumes the printed members of a non-empty
object up to and including the closing brace. -/
theorem parseMembers_print (lvl : Nat) :
    ∀ (ps : List (String × Json)) (p : String × Json),
      (∀ q ∈ p :: ps, ∀ (lvl2 : Nat) (rest2 : List Char) (f2 : Nat),
        jfuel q.2 ≤ f2 → headNotDigit rest2 = true →
        parseVal f2 (jdump lvl2 q.2 ++ rest2) = some (q.2, rest2)) →
      ∀ (f : Nat) (rest : List Char), membersFuel p ps ≤ f →
      parseMembers f
          ('\n' :: (jdumpMembers (lvl + 1) p ps
            ++ ('\n' :: (ind lvl ++ ('\x7d' :: rest)))))
        = some (p :: ps, rest) := by
  intro ps
  induction ps with
  | nil =>
    intro p hyp f rest hf
    obtain ⟨k, v⟩ := p
    cases f with
    | zero => simp [membersFuel] at hf
    | succ f1 =>
      have hv := hyp (k, v) (List.mem_cons_self _ []) (lvl + 1)
        ('\n' :: (ind lvl ++ ('\x7d' :: rest))) f1
        (by show jfuel v ≤ f1; simp [membersFuel] at hf; omega) rfl
      simp only [parseMembers, jdumpMembers]
      rw [show '\n' :: ((ind (lvl + 1) ++ (dumpStr k ++ ':' :: ' ' :: jdump (lvl + 1) v))
            ++ ('\n' :: (ind lvl ++ ('\x7d' :: rest))))
          = ('\n' :: ind (lvl + 1)) ++ ('"' :: (escString k.data
            ++ ('"' :: (':' :: ' ' :: (jdump (lvl + 1) v
              ++ ('\n' :: (ind lvl ++ ('\x7d' :: rest)))))))) from by
        simp [dumpStr]]
      rw [skipWs_append_ws _ (nl_ind_ws (lvl + 1)) _,
        skipWs_cons_not '"' (by decide)]
      have hkey := parseStrAux_escString k.data
        ((escString k.data ++ ('"' :: (':' :: ' ' :: (jdump (lvl + 1) v
          ++ ('\n' :: (ind lvl ++ ('\x7d' :: rest))))))).length + 1) []
        (':' :: ' ' :: (jdump (lvl + 1) v ++ ('\n' :: (ind lvl ++ ('\x7d' :: rest)))))
        (by
          have := escString_length k.data
          simp only [List.length_append, List.length_cons]
          omega)
      have hk : String.mk ([] ++ k.data) = k := rfl
      rw [hk] at hkey
      simp only [reduceIte, hkey, skipWs_cons_not ':' (by decide)]
      rw [parseVal_space]
      simp only [hv, skipWs_print_tail, skipWs_cons_not '\x7d' (by decide)]
      simp
  | cons q qs ih =>
    intro p hyp f rest hf
    obtain ⟨k, v⟩ := p
    cases f with
    | zero => simp [membersFuel] at hf
    | succ f1 =>
      have hv := hyp (k, v) (List.mem_cons_self _ (q :: qs)) (lvl + 1)
        (',' :: '\n' :: (jdumpMembers (lvl + 1) q qs
          ++ ('\n' :: (ind lvl ++ ('\x7d' :: rest))))) f1
        (by show jfuel v ≤ f1; simp [membersFuel] at hf; omega) rfl
      simp only [parseMembers, jdumpMembers]
      rw [show '\n' :: ((ind (lvl + 1) ++ (dumpStr k ++ ':' :: ' ' :: (jdump (lvl + 1) v
            ++ ',' :: '\n' :: jdumpMembers (lvl + 1) q qs)))
            ++ ('\n' :: (ind lvl ++ ('\x7d' :: rest))))
          = ('\n' :: ind (lvl + 1)) ++ ('"' :: (escString k.data
            ++ ('"' :: (':' :: ' ' :: (jdump (lvl + 1) v
              ++ (',' :: '\n' :: (jdumpMembers (lvl + 1) q qs
                ++ ('\n' :: (ind lvl ++ ('\x7d' :: rest)))))))))) from by
        simp [dumpStr]]
      rw [skipWs_append_ws _ (nl_ind_ws (lvl + 1)) _,
        skipWs_cons_not '"' (by decide)]
      have hkey := parseStrAux_escString k.data
        ((escString k.data ++ ('"' :: (':' :: ' ' :: (jdump (lvl + 1) v
          ++ (',' :: '\n' :: (jdumpMembers (lvl + 1) q qs
            ++ ('\n' :: (ind lvl ++ ('\x7d' :: rest))))))))).length + 1) []
        (':' :: ' ' :: (jdump (lvl + 1) v ++ (',' :: '\n' :: (jdumpMembers (lvl + 1) q qs
          ++ ('\n' :: (ind lvl ++ ('\x7d' :: rest)))))))
        (by
          have := escString_length k.data
          simp only [List.length_append, List.length_cons]
          omega)
      have hk : String.mk ([] ++ k.data) = k := rfl
      rw [hk] at hkey
      simp only [reduceIte, hkey, skipWs_cons_not ':' (by decide)]
      rw [parseVal_space]
      have hrec := ih q (fun z hz => hyp z (List.mem_cons_of_mem (k, v) hz)) f1 rest
        (by simp [membersFuel] at hf ⊢; omega)
      simp only [hv, skipWs_cons_not ',' (by decide), hrec]
      simp

/-- Helper: after the bracket's newline and indentation, the first printed
element's head character is visible. -/
theorem skipWs_elems (lvl : Nat) (x : Json) (xs : List Json) (T : List Char)
    (c1 : Char) (cs1 : List Char) (hx : jdump (lvl + 1) x = c1 :: cs1)
    (hws : isWsChar c1 = false) :
    ∃ z, skipWs ('\n' :: (jdumpElems (lvl + 1) x xs ++ T)) = c1 :: z := by
  cases xs with
  | nil =>
    refine ⟨cs1 ++ T, ?_⟩
    simp only [jdumpElems, hx]
    rw [show '\n' :: ((ind (lvl + 1) ++ (c1 :: cs1)) ++ T)
        = ('\n' :: ind (lvl + 1)) ++ (c1 :: (cs1 ++ T)) from by simp]
    rw [skipWs_append_ws _ (nl_ind_ws (lvl + 1)) _, skipWs_cons_not c1 hws]
  | cons y ys =>
    refine ⟨cs1 ++ (',' :: '\n' :: jdumpElems (lvl + 1) y ys ++ T), ?_⟩
    simp only [jdumpElems, hx]
    rw [show '\n' :: ((ind (lvl + 1) ++ ((c1 :: cs1)
          ++ ',' :: '\n' :: jdumpElems (lvl + 1) y ys)) ++ T)
        = ('\n' :: ind (lvl + 1)) ++ (c1 :: (cs1
          ++ (',' :: '\n' :: jdumpElems (lvl + 1) y ys ++ T))) from by simp]
    rw [skipWs_append_ws _ (nl_ind_ws (lvl + 1)) _, skipWs_cons_not c1 hws]

/-- Helper: after the brace's newline and indentation, the first member's
opening quote is visible. -/
theorem skipWs_members (lvl : Nat) (p : String × Json)
    (ps : List (String × Json)) (T : List Char) :
    ∃ z, skipWs ('\n' :: (jdumpMembers (lvl + 1) p ps ++ T)) = '"' :: z := by
  obtain ⟨k, v⟩ := p
  cases ps with
  | nil =>
    refine ⟨(escString k.data ++ ['"']) ++ (':' :: ' ' :: jdump (lvl + 1) v) ++ T, ?_⟩
    simp only [jdumpMembers, dumpStr]
    rw [show '\n' :: ((ind (lvl + 1) ++ (('"' :: (escString k.data ++ ['"']))
          ++ ':' :: ' ' :: jdump (lvl + 1) v)) ++ T)
        = ('\n' :: ind (lvl + 1)) ++ ('"' :: ((escString k.data ++ ['"'])
          ++ (':' :: ' ' :: jdump (lvl + 1) v) ++ T)) from by simp]
    rw [skipWs_append_ws _ (nl_ind_ws (lvl + 1)) _, skipWs_cons_not '"' (by decide)]
  | cons q qs =>
    refine ⟨(escString k.data ++ ['"']) ++ (':' :: ' ' :: (jdump (lvl + 1) v
      ++ ',' :: '\n' :: jdumpMembers (lvl + 1) q qs)) ++ T, ?_⟩
    simp only [jdumpMembers, dumpStr]
    rw [show '\n' :: ((ind (lvl + 1) ++ (('"' :: (escString k.data ++ ['"']))
          ++ ':' :: ' ' :: (jdump (lvl + 1) v
            ++ ',' :: '\n' :: jdumpMembers (lvl + 1) q qs))) ++ T)
        = ('\n' :: ind (lvl + 1)) ++ ('"' :: ((escString k.data ++ ['"'])
          ++ (':' :: ' ' :: (jdump (lvl + 1) v
            ++ ',' :: '\n' :: jdumpMembers (lvl + 1) q qs)) ++ T)) from by simp]
    rw [skipWs_append_ws _ (nl_ind_ws (lvl + 1)) _, skipWs_cons_not '"' (by decide)]

/-- Helper: parsing a dumped document (at any indentation level, with any
non-digit-starting continuation) returns exactly that document. -/
theorem parse_jdump : ∀ v : Json, ∀ (lvl : Nat) (rest : List Char) (f : Nat),
    jfuel v ≤ f → headNotDigit rest = true →
    parseVal f (jdump lvl v ++ rest) = some (v, rest) := by
  refine jsonStrongInd _ ?_ ?_ ?_ ?_ ?_ ?_
  · intro lvl rest f hf _
    cases f with
    | zero => simp [jfuel] at hf
    | succ f1 =>
      simp only [jdump, List.cons_append, List.nil_append]
      rfl
  · intro b lvl rest f hf _
    cases f with
    | zero => simp [jfuel] at hf
    | succ f1 =>
      cases b with
      | false =>
        simp only [jdump, List.cons_append, List.nil_append]
        rfl
      | true =>
        simp only [jdump, List.cons_append, List.nil_append]
        rfl
  · intro n lvl rest f hf hrest
    cases f with
    | zero => simp [jfuel] at hf
    | succ f1 =>
      simp only [jdump]
      have hp : ∃ c cs, printInt n = c :: cs ∧ isWsChar c = false ∧ c ≠ 'n' ∧
          c ≠ 't' ∧ c ≠ 'f' ∧ c ≠ '"' ∧ c ≠ '[' ∧ c ≠ '\x7b' := by
        by_cases hneg : n < 0
        · exact ⟨'-', natDigits n.natAbs, by simp [printInt, hneg], by decide,
            by decide, by decide, by decide, by decide, by decide, by decide⟩
        · cases hnd : natDigits n.natAbs with
          | nil => exact absurd hnd (natDigits_ne_nil _)
          | cons d ds =>
            have hdd : isDigitChar d = true :=
              natDigits_all_digits _ d (by rw [hnd]; exact List.mem_cons_self d ds)
            have hdf := digit_char_facts hdd
            exact ⟨d, ds, by simp [printInt, hneg, hnd], hdf.1, hdf.2.1,
              hdf.2.2.1, hdf.2.2.2.1, hdf.2.2.2.2.1, hdf.2.2.2.2.2.1,
              hdf.2.2.2.2.2.2.1⟩
      obtain ⟨c, cs, hpc, hws, h1, h2, h3, h4, h5, h6⟩ := hp
      rw [hpc, List.cons_append,
        parseVal_not_special f1 c (cs ++ rest) hws h1 h2 h3 h4 h5 h6,
        ← List.cons_append, ← hpc, parseIntTok_printInt n rest hrest]
  · intro s lvl rest f hf _
    cases f with
    | zero => simp [jfuel] at hf
    | succ f1 =>
      simp only [jdump, dumpStr]
      rw [show ('"' :: (escString s.data ++ ['"'])) ++ rest
          = '"' :: (escString s.data ++ ('"' :: rest)) from by simp]
      simp only [parseVal, skipWs_cons_not '"' (by decide)]
      rw [if_neg (by decide : ¬('"' : Char) = 'n'),
        if_neg (by decide : ¬('"' : Char) = 't'),
        if_neg (by decide : ¬('"' : Char) = 'f'), if_true]
      have hps := parseStrAux_escString s.data
        ((escString s.data ++ ('"' :: rest)).length + 1) [] rest
        (by
          have := escString_length s.data
          simp only [List.length_append, List.length_cons]
          omega)
      have hs : String.mk ([] ++ s.data) = s := rfl
      rw [hs] at hps
      rw [hps]
  · intro xs ihm lvl rest f hf hrest
    cases f with
    | zero => cases xs <;> simp [jfuel] at hf
    | succ f1 =>
      cases xs with
      | nil =>
        simp only [jdump, List.cons_append, List.nil_append]
        simp only [parseVal, skipWs_cons_not '[' (by decide)]
        rw [if_neg (by decide : ¬('[' : Char) = 'n'),
          if_neg (by decide : ¬('[' : Char) = 't'),
          if_neg (by decide : ¬('[' : Char) = 'f'),
          if_neg (by decide : ¬('[' : Char) = '"'), if_true]
        simp only [skipWs_cons_not ']' (by decide), reduceIte]
      | cons x xs =>
        simp only [jdump]
        rw [show (('[' :: '\n' :: (jdumpElems (lvl + 1) x xs
              ++ '\n' :: (ind lvl ++ [']']))) ++ rest)
            = '[' :: ('\n' :: (jdumpElems (lvl + 1) x xs
              ++ ('\n' :: (ind lvl ++ (']' :: rest))))) from by simp]
        simp only [parseVal, skipWs_cons_not '[' (by decide)]
        rw [if_neg (by decide : ¬('[' : Char) = 'n'),
          if_neg (by decide : ¬('[' : Char) = 't'),
          if_neg (by decide : ¬('[' : Char) = 'f'),
          if_neg (by decide : ¬('[' : Char) = '"'), if_true]
        obtain ⟨c1, cs1, hc1, hws1, hne1, _, _⟩ := jdump_head (lvl + 1) x
        obtain ⟨z, hz⟩ := skipWs_elems lvl x xs
          ('\n' :: (ind lvl ++ (']' :: rest))) c1 cs1 hc1 hws1
        rw [hz]
        simp only [if_neg hne1]
        rw [parseElems_print lvl xs x ihm f1 rest
          (by cases xs <;> simp [jfuel, elemsFuel] at hf ⊢ <;> omega)]
  · intro kvs ihm lvl rest f hf hrest
    cases f with
    | zero => cases kvs <;> simp [jfuel] at hf
    | succ f1 =>
      cases kvs with
      | nil =>
        simp only [jdump, List.cons_append, List.nil_append]
        simp only [parseVal, skipWs_cons_not '\x7b' (by decide)]
        rw [if_neg (by decide : ¬('\x7b' : Char) = 'n'),
          if_neg (by decide : ¬('\x7b' : Char) = 't'),
          if_neg (by decide : ¬('\x7b' : Char) = 'f'),
          if_neg (by decide : ¬('\x7b' : Char) = '"'),
          if_neg (by decide : ¬('\x7b' : Char) = '['), if_true]
        simp only [skipWs_cons_not '\x7d' (by decide), reduceIte]
      | cons p ps =>
        simp only [jdump]
        rw [show (('\x7b' :: '\n' :: (jdumpMembers (lvl + 1) p ps
              ++ '\n' :: (ind lvl ++ ['\x7d']))) ++ rest)
            = '\x7b' :: ('\n' :: (jdumpMembers (lvl + 1) p ps
              ++ ('\n' :: (ind lvl ++ ('\x7d' :: rest))))) from by simp]
        simp only [parseVal, skipWs_cons_not '\x7b' (by decide)]
        rw [if_neg (by decide : ¬('\x7b' : Char) = 'n'),
          if_neg (by decide : ¬('\x7b' : Char) = 't'),
          if_neg (by decide : ¬('\x7b' : Char) = 'f'),
          if_neg (by decide : ¬('\x7b' : Char) = '"'),
          if_neg (by decide : ¬('\x7b' : Char) = '['), if_true]
        obtain ⟨z, hz⟩ := skipWs_members lvl p ps
          ('\n' :: (ind lvl ++ ('\x7d' :: rest)))
        rw [hz]
        simp only [if_neg (by decide : ¬('"' : Char) = '\x7d')]
        rw [parseMembers_print lvl ps p (fun q hq => ihm q hq) f1 rest
          (by
            obtain ⟨k, v⟩ := p
            cases ps <;> simp [jfuel, membersFuel] at hf ⊢ <;> omega)]

/-- Helper: element-loop fuel is bounded by the printed length plus two. -/
theorem elemsFuel_le_len (x : Json) (xs : List Json)
    (hyp : ∀ y ∈ x :: xs, ∀ l, jfuel y ≤ (jdump l y).length) :
    ∀ lvl, elemsFuel x xs ≤ (jdumpElems lvl x xs).length + 2 := by
  induction xs generalizing x with
  | nil =>
    intro lvl
    have hx := hyp x (List.mem_cons_self x []) lvl
    simp only [elemsFuel, jdumpElems, List.length_append]
    omega
  | cons y ys ih =>
    intro lvl
    have hx := hyp x (List.mem_cons_self x (y :: ys)) lvl
    have hr := ih y (fun z hz => hyp z (List.mem_cons_of_mem x hz)) lvl
    simp only [elemsFuel, jdumpElems, List.length_append, List.length_cons] at hr ⊢
    omega

/-- Helper: member-loop fuel is bounded by the printed length plus two. -/
theorem membersFuel_le_len (p : String × Json) (ps : List (String × Json))
    (hyp : ∀ q ∈ p :: ps, ∀ l, jfuel q.2 ≤ (jdump l q.2).length) :
    ∀ lvl, membersFuel p ps ≤ (jdumpMembers lvl p ps).length + 2 := by
  induction ps generalizing p with
  | nil =>
    intro lvl
    obtain ⟨k, v⟩ := p
    have hx := hyp (k, v) (List.mem_cons_self _ []) lvl
    simp only [membersFuel, jdumpMembers, dumpStr, List.length_append,
      List.length_cons] at hx ⊢
    omega
  | cons q qs ih =>
    intro lvl
    obtain ⟨k, v⟩ := p
    have hx := hyp (k, v) (List.mem_cons_self _ (q :: qs)) lvl
    have hr := ih q (fun z hz => hyp z (List.mem_cons_of_mem (k, v) hz)) lvl
    simp only [membersFuel, jdumpMembers, dumpStr, List.length_append,
      List.length_cons] at hx hr ⊢
    omega

/-- Helper: the fuel a document needs is at most its printed length. -/
theorem jfuel_le_jdump_length : ∀ v : Json, ∀ lvl, jfuel v ≤ (jdump lvl v).length := by
  refine jsonStrongInd _ ?_ ?_ ?_ ?_ ?_ ?_
  · intro lvl; simp [jfuel, jdump]
  · intro b lvl; cases b <;> simp [jfuel, jdump]
  · intro n lvl
    simp only [jfuel, jdump, printInt]
    split
    · simp
    · have := natDigits_ne_nil n.natAbs
      have : 0 < (natDigits n.natAbs).length := List.length_pos.mpr this
      omega
  · intro s lvl; simp [jfuel, jdump, dumpStr]
  · intro xs ihm lvl
    cases xs with
    | nil => simp [jfuel, jdump]
    | cons x xs =>
      have := elemsFuel_le_len x xs (fun y hy l => ihm y hy l) (lvl + 1)
      simp only [jfuel, jdump, List.length_cons, List.length_append]
      omega
  · intro kvs ihm lvl
    cases kvs with
    | nil => simp [jfuel, jdump]
    | cons p ps =>
      have := membersFuel_le_len p ps (fun q hq l => ihm q hq l) (lvl + 1)
      simp only [jfuel, jdump, List.length_cons, List.length_append]
      omega

/-- C8: writing a cache document and loading it back yields the document's
canonical form, which is JSON-equivalent to the original: object member
order is irrelevant (`canon` sorts it away, exactly as the
`sort_keys=True` dump does), while the order inside arrays is preserved
verbatim by both the dump and the parse. -/
theorem cache_write_load_roundtrip :
    ∀ v : Json, load_cache_from_cache (write_to_cache v) = some (canon v)
      ∧ jsonEquiv (canon v) v := by
  intro v
  constructor
  · unfold load_cache_from_cache write_to_cache json_format_dict json_loads
    have hdata : (String.mk (jdump 0 (canon v))).data = jdump 0 (canon v) := rfl
    rw [hdata]
    have hlen := jfuel_le_jdump_length (canon v) 0
    have hp := parse_jdump (canon v) 0 [] ((jdump 0 (canon v)).length + 1)
      (by omega) rfl
    rw [List.append_nil] at hp
    rw [hp]
    simp [skipWs]
  · exact canon_idem v
